import Mathlib

/-!
Verification development for the ditto scan/hash engine.

The definitions below are a shallow embedding of the engine's store
operations (internal/db), the hash-phase worker loop (internal/hash),
the scan orchestrator step (internal/server) and the exclusion matcher
(internal/scan).  Database tables are modelled as lists of rows; SQL
statements become pure state transformers on those lists.  Machine
integers (Go int64) are modelled as `Int`; SQL NULL becomes `Option`.
-/

set_option maxRecDepth 4096

namespace Ditto

/-- The `hash_status` column: one of pending, hashing, done, failed. -/
inductive HashStatus where
  | pending
  | hashing
  | done
  | failed
deriving DecidableEq, Repr

/-- One row of the `files` table (internal/db/files.go `File`).
`path` is the path relative to the folder root as stored; the display
join with `folders.path` is not modelled (no claim depends on it). -/
structure FileRow where
  id : Int
  folderId : Int
  path : String
  size : Int
  mtime : Int
  inode : Int
  deviceId : Option Int
  hash : Option String
  hashStatus : HashStatus
  hashedAt : Option Int
deriving DecidableEq, Repr

/-- One row of the `file_scan` ledger table (primary key (file_id, scan_id)). -/
structure FileScanRow where
  fileId : Int
  scanId : Int
deriving DecidableEq, Repr

/-- The persistent store: `files` plus the `file_scan` ledger. -/
structure DBState where
  files : List FileRow
  fileScan : List FileScanRow
deriving DecidableEq, Repr

/-- Well-formedness: `files.id` is a primary key (each id occurs once). -/
def NodupIds (s : DBState) : Prop := (s.files.map (·.id)).Nodup

/-- Membership of a file in a scan's ledger:
`EXISTS (SELECT 1 FROM file_scan WHERE file_id = fid AND scan_id = S)`. -/
def inScanLedger (s : DBState) (scanId fid : Int) : Bool :=
  s.fileScan.any (fun e => e.fileId == fid && e.scanId == scanId)

/-- The files present in scan `S`'s ledger
(`files f JOIN file_scan fs ON f.id = fs.file_id WHERE fs.scan_id = S`;
the ledger primary key and the files primary key make the join yield
one row per file). -/
def ledgerFiles (s : DBState) (scanId : Int) : List FileRow :=
  s.files.filter (fun f => inScanLedger s scanId f.id)

/-- Model of `sizeCandidateSubquery` (internal/db hash queue): `z` is a
candidate size for scan `S` iff
  - the size occurs more than once among files in `S`'s ledger, or
  - some file anywhere has this size and `hash_status = 'done'`, or
  - some file with this size is in a different scan's ledger. -/
def isCandidateSize (s : DBState) (scanId : Int) (z : Int) : Bool :=
  (1 < (ledgerFiles s scanId).countP (fun f => f.size == z))
  || s.files.any (fun f => f.size == z && f.hashStatus == .done)
  || s.files.any (fun f =>
       f.size == z && s.fileScan.any (fun e => e.fileId == f.id && !(e.scanId == scanId)))

/-- WHERE clause of `CountHashCandidates` / `ForEachPendingHashJob` /
`ClaimNextHashJob`: in the scan's ledger, `hash_status = 'pending'`,
and the size is a candidate size. -/
def isHashCandidate (s : DBState) (scanId : Int) (f : FileRow) : Bool :=
  inScanLedger s scanId f.id && f.hashStatus == .pending && isCandidateSize s scanId f.size

/-- The hash-phase candidate set for a scan. -/
def hashCandidates (s : DBState) (scanId : Int) : List FileRow :=
  s.files.filter (isHashCandidate s scanId)

/-- Model of `CountHashCandidates`: `SELECT COUNT(*)` over the candidate query. -/
def countHashCandidates (s : DBState) (scanId : Int) : Nat :=
  (hashCandidates s scanId).length

/-- The `ORDER BY f.size DESC` ordering as a relation on rows. -/
def sizeDesc (a b : FileRow) : Prop := b.size ≤ a.size

instance : DecidableRel sizeDesc := fun a b => inferInstanceAs (Decidable (b.size ≤ a.size))

instance : IsTotal FileRow sizeDesc := ⟨fun a b => le_total b.size a.size⟩

instance : IsTrans FileRow sizeDesc := ⟨fun _ _ _ h1 h2 => le_trans h2 h1⟩

/-- Model of `ForEachPendingHashJob`: its result stream: the candidate rows ordered by
size descending (`ORDER BY f.size DESC`). -/
def pendingHashJobs (s : DBState) (scanId : Int) : List FileRow :=
  (hashCandidates s scanId).insertionSort sizeDesc

/-- Model of `ClaimNextHashJob` (internal/db, hash queue): a single
`UPDATE files SET hash_status = 'hashing' WHERE id = (SELECT ... ORDER BY
f.size DESC LIMIT 1) RETURNING id`.  The subquery row is the head of the
size-descending candidate list; on success the returned id's row moves to
`hashing` and the claimed id is returned; `(none, s)` models no row. -/
def claimNextHashJob (s : DBState) (scanId : Int) : Option Int × DBState :=
  match pendingHashJobs s scanId with
  | [] => (none, s)
  | f :: _ =>
      (some f.id,
       { s with files := s.files.map (fun g =>
           if g.id == f.id then { g with hashStatus := .hashing } else g) })

/-- Iterated claiming: one `ClaimNextHashJob` store transition per listed
scan id, collecting the returned file ids. -/
def claimIdsOver : List Int → DBState → List Int
  | [], _ => []
  | scanId :: rest, s =>
      match claimNextHashJob s scanId with
      | (none, s') => claimIdsOver rest s'
      | (some i, s') => i :: claimIdsOver rest s'

/-- The `hash_status` of the row with the given id (primary-key lookup). -/
def getStatus (s : DBState) (fid : Int) : Option HashStatus :=
  (s.files.find? (fun f => f.id == fid)).map (·.hashStatus)

/-- The generated id for a fresh insert (`RETURNING id` of a serial key):
one more than the largest id in use. -/
def nextFileId (s : DBState) : Int :=
  (s.files.map (·.id)).foldr max 0 + 1

/-- Model of `UpsertFile` (internal/db/files.go): `INSERT ... ON CONFLICT (folder_id,
path) DO UPDATE SET size, mtime, inode, device_id = EXCLUDED... RETURNING id`.
On conflict only size/mtime/inode/device_id are rewritten; hash, hash_status,
hashed_at and the id are untouched.  Returns the new state and the id. -/
def newFileRow (s : DBState) (folderId : Int) (path : String)
    (size mtime inode : Int) (deviceId : Option Int) : FileRow :=
  { id := nextFileId s, folderId := folderId, path := path, size := size,
    mtime := mtime, inode := inode, deviceId := deviceId,
    hash := none, hashStatus := .pending, hashedAt := none }

def upsertFile (s : DBState) (folderId : Int) (path : String)
    (size mtime inode : Int) (deviceId : Option Int) : DBState × Int :=
  match s.files.find? (fun f => f.folderId == folderId && f.path == path) with
  | some f =>
      ({ s with files := s.files.map (fun g =>
           if g.folderId == folderId && g.path == path then
             { g with size := size, mtime := mtime, inode := inode, deviceId := deviceId }
           else g) },
       f.id)
  | none =>
      ({ s with files := s.files ++ [newFileRow s folderId path size mtime inode deviceId] },
       nextFileId s)

/-- One row of the batch argument of `UpsertFilesBatch` (`FileRow` in Go). -/
structure BatchRow where
  path : String
  size : Int
  mtime : Int
  inode : Int
  deviceId : Option Int
deriving DecidableEq, Repr

/-- Model of `UpsertFilesBatch` (internal/db/files.go): a single multi-VALUES
`INSERT ... ON CONFLICT DO UPDATE ... RETURNING id`.  Row-by-row it has the
same effect as `UpsertFile` per row (the SQL statement processes the VALUES
rows under the same conflict rule), so it is modelled as the fold of
`upsertFile`, returning ids in input order. -/
def upsertFilesBatch (s : DBState) (folderId : Int) (rows : List BatchRow) :
    DBState × List Int :=
  rows.foldl
    (fun acc r =>
      let (s', i) := upsertFile acc.1 folderId r.path r.size r.mtime r.inode r.deviceId
      (s', acc.2 ++ [i]))
    (s, [])

/-- Model of `InsertFileScan` (internal/db/files.go): `INSERT INTO file_scan ... ON
CONFLICT (file_id, scan_id) DO NOTHING`. -/
def insertFileScan (s : DBState) (fileId scanId : Int) : DBState :=
  if s.fileScan.any (fun e => e.fileId == fileId && e.scanId == scanId) then s
  else { s with fileScan := s.fileScan ++ [{ fileId := fileId, scanId := scanId }] }

/-- Model of `InsertFileScanBatch`: multi-VALUES insert with `ON CONFLICT DO NOTHING`,
modelled as the fold of the single-row insert. -/
def insertFileScanBatch (s : DBState) (fileIds : List Int) (scanId : Int) : DBState :=
  fileIds.foldl (fun acc i => insertFileScan acc i scanId) s

/-- Model of `HashForInode` (internal/db/filehash.go): hash of any file in the scan's
ledger with matching `(inode, device_id)` and a non-NULL hash (`LIMIT 1`);
the empty string signals "no row" (Go returns `"", nil` on `ErrNoRows`).
A NULL device id matches `device_id IS NULL`. -/
def hashForInode (s : DBState) (scanId inode : Int) (deviceId : Option Int) : String :=
  match s.files.find? (fun f =>
      inScanLedger s scanId f.id && f.inode == inode
        && f.deviceId == deviceId && f.hash.isSome) with
  | some f => f.hash.getD ""
  | none => ""

/-- Model of `HashForInodeFromPreviousScan` (internal/db/filehash.go): hash of any
file anywhere with matching `(inode, device_id)`, matching size and a
non-NULL hash.  The current scan id parameter is unused by the query. -/
def hashForInodeFromPreviousScan (s : DBState) (_currentScanId inode : Int)
    (deviceId : Option Int) (size : Int) : String :=
  match s.files.find? (fun f =>
      f.inode == inode && f.deviceId == deviceId
        && f.size == size && f.hash.isSome) with
  | some f => f.hash.getD ""
  | none => ""

/-- Model of `UpdateFileHash` (internal/db/filehash.go): `UPDATE files SET hash = $1,
hash_status = 'done', hashed_at = $2 WHERE id = $3`. -/
def updateFileHash (s : DBState) (fileId : Int) (hash : String) (hashedAt : Int) : DBState :=
  { s with files := s.files.map (fun f =>
      if f.id == fileId then
        { f with hash := some hash, hashStatus := .done, hashedAt := some hashedAt }
      else f) }

/-- Model of `ResetFileHashStatusToPending` (internal/db/filehash.go): `UPDATE files
SET hash_status = 'pending' WHERE id = $1 AND hash_status = 'hashing'`. -/
def resetFileHashStatusToPending (s : DBState) (fileId : Int) : DBState :=
  { s with files := s.files.map (fun f =>
      if f.id == fileId && f.hashStatus == .hashing then
        { f with hashStatus := .pending }
      else f) }

/-- Model of `ResetHashStatusHashingToPending` (internal/db/filehash.go): `UPDATE files
SET hash_status = 'pending' WHERE id IN (SELECT file_id FROM file_scan WHERE
scan_id = $1) AND hash_status = 'hashing'`. -/
def resetHashStatusHashingToPending (s : DBState) (scanId : Int) : DBState :=
  { s with files := s.files.map (fun f =>
      if inScanLedger s scanId f.id && f.hashStatus == .hashing then
        { f with hashStatus := .pending }
      else f) }

/-- Outcome of `processClaimedJob` (internal/hash run): the resulting store,
whether the job counted as reused, whether the file was opened for reading
(`HashFile` invoked), the error if any, and the digest written (if any). -/
structure JobOutcome where
  state : DBState
  reused : Bool
  opened : Bool
  err : Option String
  digest : Option String
deriving DecidableEq, Repr

/-- Model of `processClaimedJob` (internal/hash run): try same-scan inode reuse
(`HashForInode`), then prior-scan reuse (`HashForInodeFromPreviousScan` on
inode, device and size); a non-empty result is written via `UpdateFileHash`
and counted as reused without opening the file.  Only when both lookups are
empty is the file opened and streamed through the digest; `readResult`
models the `HashFile(job.Path)` call (`.error` = I/O failure).  The rate
limiter and logging do not affect the store and are not modelled. -/
def processClaimedJob (s : DBState) (scanId : Int) (job : FileRow)
    (readResult : Except String String) (now : Int) : JobOutcome :=
  let h1 := hashForInode s scanId job.inode job.deviceId
  if h1 != "" then
    { state := updateFileHash s job.id h1 now, reused := true, opened := false,
      err := none, digest := some h1 }
  else
    let h2 := hashForInodeFromPreviousScan s scanId job.inode job.deviceId job.size
    if h2 != "" then
      { state := updateFileHash s job.id h2 now, reused := true, opened := false,
        err := none, digest := some h2 }
    else
      match readResult with
      | .error e =>
          { state := s, reused := false, opened := true, err := some e, digest := none }
      | .ok h =>
          { state := updateFileHash s job.id h now, reused := false, opened := true,
            err := none, digest := some h }

/-- Result of the consumer loop of `runHashPhaseProducerConsumer`
(internal/hash run): final store, per-file error count, reuse count, the
ids fully processed, and the first error sent to `errCh` (which
`runHashPhaseProducerConsumer` returns as the phase result). -/
structure HashWorkerResult where
  state : DBState
  errorCount : Nat
  reusedCount : Nat
  processed : List Int
  firstErr : Option String
deriving Repr

/-- The consumer loop of `runHashPhaseProducerConsumer` for the default
single worker: jobs are taken in order from the producer's channel; on a
per-file error the worker increments the error count, resets the file to
pending, sends the error to `errCh` and returns (stops consuming).
`proc` abstracts `processClaimedJob` (new store and reused-flag, or error). -/
def workerLoop (proc : DBState → FileRow → Except String (DBState × Bool)) :
    List FileRow → DBState → HashWorkerResult
  | [], s => { state := s, errorCount := 0, reusedCount := 0, processed := [], firstErr := none }
  | j :: rest, s =>
      match proc s j with
      | .error e =>
          { state := resetFileHashStatusToPending s j.id, errorCount := 1,
            reusedCount := 0, processed := [], firstErr := some e }
      | .ok (s', reused) =>
          let r := workerLoop proc rest s'
          { state := r.state, errorCount := r.errorCount,
            reusedCount := r.reusedCount + (if reused then 1 else 0),
            processed := j.id :: r.processed, firstErr := r.firstErr }

/-- A scan row as far as the orchestrator reads it (internal/db/scans.go). -/
structure ScanRow where
  id : Int
  rootPath : String
  completedAt : Option Int
  hashCompletedAt : Option Int
deriving DecidableEq, Repr

/-- The two phases `runOneScan` can run. -/
inductive PhaseOp where
  | scanPipeline
  | hashPhase
deriving DecidableEq, Repr

/-- Model of `Server.runOneScan` (internal/server/server.go), after the scan row is
loaded: runs the scan pipeline iff `completed_at` is unset (returning early
if it fails, modelled by `scanOutcome = some err`), then the hash phase.
The result lists the phases started, in order. -/
def runOneScan (scanOutcome : Option String) (sn : ScanRow) : List PhaseOp :=
  if sn.completedAt.isNone then
    match scanOutcome with
    | some _ => [.scanPipeline]
    | none => [.scanPipeline, .hashPhase]
  else [.hashPhase]

/-- Model of `handleScanContinue` (internal/server/server.go): a continue request
enqueues the scan id only when the scan is not fully complete; when both
`completed_at` and `hash_completed_at` are set it redirects without
enqueueing. -/
def continueEnqueues (sn : ScanRow) : Bool :=
  !(sn.completedAt.isSome && sn.hashCompletedAt.isSome)

/-!
SHA-256 (FIPS 180-4), the digest `HashFile` streams each file through
(`crypto/sha256` + `encoding/hex` in internal/hash).  Bytes and 32-bit
words are `Nat` with explicit reduction mod 2^32.
-/

/-- Addition mod 2^32. -/
def add32 (a b : Nat) : Nat := (a + b) % 4294967296

/-- Rotate a 32-bit word right by `n`. -/
def rotr32 (n x : Nat) : Nat := ((x >>> n) ||| (x <<< (32 - n))) % 4294967296

/-- Bitwise complement within 32 bits. -/
def not32 (x : Nat) : Nat := x ^^^ 4294967295

def sigmaLower0 (x : Nat) : Nat := (rotr32 7 x) ^^^ (rotr32 18 x) ^^^ (x >>> 3)

def sigmaLower1 (x : Nat) : Nat := (rotr32 17 x) ^^^ (rotr32 19 x) ^^^ (x >>> 10)

def sigmaUpper0 (x : Nat) : Nat := (rotr32 2 x) ^^^ (rotr32 13 x) ^^^ (rotr32 22 x)

def sigmaUpper1 (x : Nat) : Nat := (rotr32 6 x) ^^^ (rotr32 11 x) ^^^ (rotr32 25 x)

/-- The 64 SHA-256 round constants. -/
def sha256K : List Nat :=
  [1116352408, 1899447441, 3049323471, 3921009573, 961987163, 1508970993,
   2453635748, 2870763221, 3624381080, 310598401, 607225278, 1426881987,
   1925078388, 2162078206, 2614888103, 3248222580, 3835390401, 4022224774,
   264347078, 604807628, 770255983, 1249150122, 1555081692, 1996064986,
   2554220882, 2821834349, 2952996808, 3210313671, 3336571891, 3584528711,
   113926993, 338241895, 666307205, 773529912, 1294757372, 1396182291,
   1695183700, 1986661051, 2177026350, 2456956037, 2730485921, 2820302411,
   3259730800, 3345764771, 3516065817, 3600352804, 4094571909, 275423344,
   430227734, 506948616, 659060556, 883997877, 958139571, 1322822218,
   1537002063, 1747873779, 1955562222, 2024104815, 2227730452, 2361852424,
   2428436474, 2756734187, 3204031479, 3329325298]

/-- The initial hash value H(0). -/
def sha256Init : List Nat :=
  [1779033703, 3144134277, 1013904242, 2773480762,
   1359893119, 2600822924, 528734635, 1541459225]

/-- Big-endian 8-byte encoding of the message bit length. -/
def be64 (n : Nat) : List Nat :=
  [n / 2 ^ 56 % 256, n / 2 ^ 48 % 256, n / 2 ^ 40 % 256, n / 2 ^ 32 % 256,
   n / 2 ^ 24 % 256, n / 2 ^ 16 % 256, n / 2 ^ 8 % 256, n % 256]

/-- SHA-256 padding: a 0x80 byte, zero bytes to 56 mod 64, then the bit
length big-endian. -/
def padMessage (msg : List Nat) : List Nat :=
  let len := msg.length
  let zeros := (119 - len % 64) % 64
  msg ++ [0x80] ++ List.replicate zeros 0 ++ be64 (len * 8)

/-- Take `n` blocks of 64 bytes. -/
def chunksN : Nat → List Nat → List (List Nat)
  | 0, _ => []
  | n + 1, l => l.take 64 :: chunksN n (l.drop 64)

/-- Split the padded message (a multiple of 64 bytes) into 64-byte blocks. -/
def chunks64 (l : List Nat) : List (List Nat) :=
  chunksN (l.length / 64) l

/-- Combine bytes big-endian into 32-bit words. -/
def be32Words : List Nat → List Nat
  | a :: b :: c :: d :: rest => (((a * 256 + b) * 256 + c) * 256 + d) :: be32Words rest
  | _ => []

/-- Extend the 16 block words to the 64-entry message schedule. -/
def buildSchedule (w0 : List Nat) : List Nat :=
  (List.range 48).foldl
    (fun w _ =>
      let n := w.length
      w ++ [add32 (add32 (sigmaLower1 (w.getD (n - 2) 0)) (w.getD (n - 7) 0))
              (add32 (sigmaLower0 (w.getD (n - 15) 0)) (w.getD (n - 16) 0))])
    w0

/-- One compression round over the working variables `[a,b,c,d,e,f,g,h]`. -/
def sha256Round (st : List Nat) (kw : Nat × Nat) : List Nat :=
  match st with
  | [a, b, c, d, e, f, g, h] =>
      let t1 := add32 h (add32 (sigmaUpper1 e)
        (add32 ((e &&& f) ^^^ (not32 e &&& g)) (add32 kw.1 kw.2)))
      let t2 := add32 (sigmaUpper0 a) ((a &&& b) ^^^ (a &&& c) ^^^ (b &&& c))
      [add32 t1 t2, a, b, c, add32 d t1, e, f, g]
  | _ => st

/-- Compress one 64-byte block into the running hash value. -/
def compressBlock (hv : List Nat) (block : List Nat) : List Nat :=
  let w := buildSchedule (be32Words block)
  let st := (sha256K.zip w).foldl sha256Round hv
  List.zipWith add32 hv st

/-- Big-endian bytes of a 32-bit word. -/
def wordBytes (w : Nat) : List Nat :=
  [w / 2 ^ 24 % 256, w / 2 ^ 16 % 256, w / 2 ^ 8 % 256, w % 256]

/-- The SHA-256 digest bytes of a byte sequence. -/
def sha256Bytes (msg : List Nat) : List Nat :=
  (((chunks64 (padMessage msg)).foldl compressBlock sha256Init).map wordBytes).flatten

/-- The lowercase hexadecimal alphabet used by `encoding/hex`. -/
def hexDigits : List Char := "0123456789abcdef".toList

def hexChar (n : Nat) : Char := hexDigits.getD n '0'

/-- Lowercase hex encoding of a byte list (`hex.EncodeToString`). -/
def hexEncode (bs : List Nat) : List Char :=
  (bs.map (fun b => [hexChar (b / 16), hexChar (b % 16)])).flatten

/-- Model of `HashFile` (internal/hash): the file's content streamed through SHA-256
(`io.Copy` into `sha256.New()`), returned as a lowercase-hex string.
`content` is the byte sequence read from the file. -/
def hashFileContent (content : List Nat) : String :=
  String.mk (hexEncode (sha256Bytes content))

/-- The bytes of an ASCII string, for test vectors. -/
def asciiBytes (s : String) : List Nat := s.toList.map (·.toNat)

/-!
Go `path/filepath.Match` on unix (`Separator = '/'`), used by
`ShouldExclude` for patterns containing `*` or `?`.  Strings are modelled
as `List Char`; `none` models `ErrBadPattern` (the caller discards the
error, so a bad pattern never matches).
-/

/-- Model of `getEsc`: reads one (possibly escaped) character of a character class.
Errors on an empty chunk, a leading `-` or `]`, a trailing backslash, or
when nothing follows the character (the class is unterminated). -/
def getEsc : List Char → Option (Char × List Char)
  | [] => none
  | c :: rest =>
      if c = '-' ∨ c = ']' then none
      else if c = '\\' then
        match rest with
        | [] => none
        | d :: rest2 => if rest2 = [] then none else some (d, rest2)
      else if rest = [] then none else some (c, rest)

theorem getEsc_length {l : List Char} {c : Char} {l' : List Char}
    (h : getEsc l = some (c, l')) : l'.length < l.length := by
  match l with
  | [] => simp [getEsc] at h
  | a :: rest =>
    by_cases h1 : a = '-' ∨ a = ']'
    · simp [getEsc, h1] at h
    · by_cases h2 : a = '\\'
      · match rest with
        | [] => simp [getEsc, h1, h2] at h
        | d :: rest2 =>
          by_cases h3 : rest2 = []
          · simp [getEsc, h1, h2, h3] at h
          · simp only [getEsc, h1, h2, h3, if_false, if_true, ite_false, ite_true] at h
            cases h
            simp [List.length_cons]
            omega
      · by_cases h3 : rest = []
        · simp [getEsc, h1, h2, h3] at h
        · simp only [getEsc, h1, h2, h3, if_false, ite_false, ite_true] at h
          cases h
          simp [List.length_cons]

/-- The high end of a range in a character class: after the low end, a `-`
introduces an explicit high end via `getEsc`; otherwise the range is the
single character `lo`. -/
def getRangeHi (lo : Char) (c1 : List Char) : Option (Char × List Char) :=
  match c1 with
  | '-' :: c1t => getEsc c1t
  | _ => some (lo, c1)

theorem getRangeHi_length {lo : Char} {c1 : List Char} {hi : Char} {c2 : List Char}
    (h : getRangeHi lo c1 = some (hi, c2)) : c2.length ≤ c1.length := by
  match c1 with
  | [] =>
    simp only [getRangeHi, Option.some.injEq, Prod.mk.injEq] at h
    obtain ⟨-, h2⟩ := h
    simp [← h2]
  | a :: c1t =>
    by_cases ha : a = '-'
    · subst ha
      simp only [getRangeHi] at h
      have := getEsc_length h
      simp
      omega
    · have hne : getRangeHi lo (a :: c1t) = some (lo, a :: c1t) := by
        simp only [getRangeHi]
        split
        · rename_i heq
          cases heq
          exact absurd rfl ha
        · rfl
      rw [hne] at h
      cases h
      exact le_refl _

/-- The range-parsing loop of `matchChunk`'s `[...]` case: consumes ranges
`lo` or `lo-hi` until the closing `]` (a `]` is accepted as terminator only
after at least one range); returns whether `r` is in the class, and the
chunk after the `]`. -/
def parseClassRanges (r : Char) (chunk : List Char) (matched : Bool) (nrange : Nat) :
    Option (Bool × List Char) :=
  if h : chunk.head? = some ']' ∧ nrange > 0 then
    some (matched, chunk.tail)
  else
    match hlo : getEsc chunk with
    | none => none
    | some (lo, c1) =>
        match hhi : getRangeHi lo c1 with
        | none => none
        | some (hi, c2) =>
            parseClassRanges r c2 (matched || (lo ≤ r && r ≤ hi)) (nrange + 1)
termination_by chunk.length
decreasing_by
  have hlt1 : c1.length < chunk.length := getEsc_length hlo
  have hle2 : c2.length ≤ c1.length := getRangeHi_length hhi
  omega

theorem parseClassRanges_length {r : Char} :
    ∀ (chunk : List Char) (m : Bool) (n : Nat) (b : Bool) (rest : List Char),
      parseClassRanges r chunk m n = some (b, rest) → rest.length ≤ chunk.length := by
  intro chunk m n
  induction chunk, m, n using parseClassRanges.induct r with
  | case1 chunk m n hterm =>
    intro b rest h
    rw [parseClassRanges, dif_pos hterm] at h
    cases h
    rw [List.length_tail]
    omega
  | case2 chunk m n hterm hlo =>
    intro b rest h
    rw [parseClassRanges, dif_neg hterm] at h
    split at h
    · exact Option.noConfusion h
    · rename_i lo c1 heq
      rw [hlo] at heq
      exact Option.noConfusion heq
  | case3 chunk m n hterm lo c1 hlo hhi =>
    intro b rest h
    rw [parseClassRanges, dif_neg hterm] at h
    split at h
    · rename_i heq
      rw [hlo] at heq
      exact Option.noConfusion heq
    · rename_i lo' c1' heq
      rw [hlo] at heq
      injection heq with heq2
      injection heq2 with he1 he2
      subst he1
      subst he2
      split at h
      · exact Option.noConfusion h
      · rename_i hi' c2' heq3
        rw [hhi] at heq3
        exact Option.noConfusion heq3
  | case4 chunk m n hterm lo c1 hlo hi c2 hhi ih =>
    intro b rest h
    rw [parseClassRanges, dif_neg hterm] at h
    split at h
    · exact Option.noConfusion h
    · rename_i lo' c1' heq
      rw [hlo] at heq
      injection heq with heq2
      injection heq2 with he1 he2
      subst he1
      subst he2
      split at h
      · exact Option.noConfusion h
      · rename_i hi' c2' heq3
        rw [hhi] at heq3
        injection heq3 with heq4
        injection heq4 with hf1 hf2
        subst hf1
        subst hf2
        have h1 := getEsc_length hlo
        have h2 := getRangeHi_length hhi
        have := ih b rest h
        omega

/-- The optional leading `^` of a character class: whether the class is
negated, and the chunk after the `^`. -/
def classNeg : List Char → Bool × List Char
  | '^' :: t => (true, t)
  | ch => (false, ch)

theorem classNeg_length (ch : List Char) : (classNeg ch).2.length ≤ ch.length := by
  match ch with
  | [] => simp [classNeg]
  | a :: t =>
    by_cases ha : a = '^'
    · subst ha
      simp [classNeg]
    · have : classNeg (a :: t) = (false, a :: t) := by
        simp only [classNeg]
        split
        · rename_i heq
          cases heq
          exact absurd rfl ha
        · rfl
      rw [this]

/-- Model of `matchChunk`: matches a chunk (no unescaped stars) against the front of
`s`, returning the unmatched remainder and whether it matched; `none`
models `ErrBadPattern`.  `failed` is Go's failure flag: once set, the chunk
is still parsed (for error detection) without consuming `s`. -/
def matchChunk : List Char → List Char → Bool → Option (List Char × Bool)
  | [], s, failed => if failed then some ([], false) else some (s, true)
  | c :: ch, s, failed =>
      let failed1 := failed || s.isEmpty
      if c = '[' then
        let r := if failed1 then Char.ofNat 0 else s.headD (Char.ofNat 0)
        let s' := if failed1 then s else s.tail
        let p := classNeg ch
        match hp : parseClassRanges r p.2 false 0 with
        | none => none
        | some (m, rest) => matchChunk rest s' (failed1 || (m == p.1))
      else if c = '?' then
        if failed1 then matchChunk ch s failed1
        else matchChunk ch s.tail (failed1 || (s.headD (Char.ofNat 0) == '/'))
      else if c = '\\' then
        match ch with
        | [] => none
        | d :: ch2 =>
            if failed1 then matchChunk ch2 s failed1
            else matchChunk ch2 s.tail (failed1 || !(d == s.headD (Char.ofNat 0)))
      else
        if failed1 then matchChunk ch s failed1
        else matchChunk ch s.tail (failed1 || !(c == s.headD (Char.ofNat 0)))
termination_by chunk _ _ => chunk.length
decreasing_by
  all_goals simp only [List.length_cons]
  · have hrest := parseClassRanges_length _ _ _ _ _ hp
    have hle := classNeg_length ch
    simp only [p] at hrest
    omega
  all_goals omega

/-- Strip the leading `*`s of a pattern; the Bool records whether any were
stripped. -/
def stripStars : List Char → Bool × List Char
  | '*' :: rest => (true, (stripStars rest).2)
  | l => (false, l)

/-- The `Scan` loop of `scanChunk`: collect the chunk up to the next
unescaped `*` outside a `[...]` range; a backslash escapes the following
character. -/
def scanBody (inrange : Bool) : List Char → List Char × List Char
  | [] => ([], [])
  | '\\' :: cs =>
      (match cs with
       | d :: ds =>
           let r := scanBody inrange ds
           ('\\' :: d :: r.1, r.2)
       | [] => (['\\'], []))
  | '[' :: cs =>
      let r := scanBody true cs
      ('[' :: r.1, r.2)
  | ']' :: cs =>
      let r := scanBody false cs
      (']' :: r.1, r.2)
  | '*' :: cs =>
      if inrange then
        let r := scanBody inrange cs
        ('*' :: r.1, r.2)
      else ([], '*' :: cs)
  | c :: cs =>
      let r := scanBody inrange cs
      (c :: r.1, r.2)

/-- Model of `scanChunk`: split a pattern into (leading-star?, chunk, rest). -/
def scanChunk (pattern : List Char) : Bool × List Char × List Char :=
  let sp := stripStars pattern
  let br := scanBody false sp.2
  (sp.1, br.1, br.2)

theorem stripStars_star (rest : List Char) :
    stripStars ('*' :: rest) = (true, (stripStars rest).2) := rfl

theorem stripStars_of_ne {c : Char} (rest : List Char) (hc : c ≠ '*') :
    stripStars (c :: rest) = (false, c :: rest) := by
  rw [stripStars.eq_def]
  split
  · rename_i heq
    injection heq with ha _
    exact absurd ha hc
  · rfl

theorem stripStars_le : ∀ l : List Char, (stripStars l).2.length ≤ l.length := by
  intro l
  match l with
  | [] => simp [stripStars]
  | c :: rest =>
    by_cases hc : c = '*'
    · subst hc
      have ih := stripStars_le rest
      rw [stripStars_star]
      simp only [List.length_cons]
      omega
    · rw [stripStars_of_ne rest hc]

theorem stripStars_lt {l : List Char} (h : (stripStars l).1 = true) :
    (stripStars l).2.length < l.length := by
  match l with
  | [] => simp [stripStars] at h
  | c :: rest =>
    by_cases hc : c = '*'
    · subst hc
      have := stripStars_le rest
      rw [stripStars_star]
      simp only [List.length_cons]
      omega
    · rw [stripStars_of_ne rest hc] at h
      exact absurd h (by simp)

theorem scanBody_length : ∀ (inrange : Bool) (l : List Char),
    (scanBody inrange l).1.length + (scanBody inrange l).2.length = l.length := by
  intro inrange l
  induction inrange, l using scanBody.induct <;> simp_all [scanBody] <;> omega

/-- Evaluation of `scanBody` on a head character that matches no special case. -/
theorem scanBody_cons_other {c : Char} (inrange : Bool) (cs : List Char)
    (h1 : c ≠ '\\') (h2 : c ≠ '[') (h3 : c ≠ ']') (hc : c ≠ '*') :
    scanBody inrange (c :: cs) =
      (c :: (scanBody inrange cs).1, (scanBody inrange cs).2) := by
  rw [scanBody.eq_def]
  split
  · rename_i heq
    simp at heq
  · rename_i heq
    injection heq with ha _
    exact absurd ha h1
  · rename_i heq
    injection heq with ha _
    exact absurd ha h2
  · rename_i heq
    injection heq with ha _
    exact absurd ha h3
  · rename_i heq
    injection heq with ha _
    exact absurd ha hc
  · rename_i heq
    injection heq with ha hb
    subst hb
    subst ha
    rfl

/-- The function `scanBody` consumes at least the head character unless it is an
unescaped `*` outside a range. -/
theorem scanBody_cons_ne_nil {c : Char} (cs : List Char) (hc : c ≠ '*') :
    (scanBody false (c :: cs)).1 ≠ [] := by
  by_cases h1 : c = '\\'
  · subst h1
    match cs with
    | d :: ds =>
      show ('\\' :: d :: (scanBody false ds).1 : List Char) ≠ []
      simp
    | [] =>
      show (['\\'] : List Char) ≠ []
      simp
  · by_cases h2 : c = '['
    · subst h2
      show ('[' :: (scanBody true cs).1 : List Char) ≠ []
      simp
    · by_cases h3 : c = ']'
      · subst h3
        show (']' :: (scanBody false cs).1 : List Char) ≠ []
        simp
      · rw [scanBody_cons_other false cs h1 h2 h3 hc]
        simp

/-- If a nonempty pattern does not reduce to a bare trailing star
(`star ∧ chunk = []`), the rest after the first chunk is strictly shorter. -/
theorem scanChunk_rest_length {pattern : List Char} (hne : pattern ≠ [])
    (hnb : ¬((scanChunk pattern).1 = true ∧ (scanChunk pattern).2.1 = [])) :
    (scanChunk pattern).2.2.length < pattern.length := by
  have hbody := scanBody_length false (stripStars pattern).2
  simp only [scanChunk] at hnb ⊢
  by_cases hstar : (stripStars pattern).1
  · have hlt := stripStars_lt hstar
    omega
  · -- no leading star: stripping is the identity and the pattern head is
    -- not '*', so the body consumes at least one character
    have hsame : (stripStars pattern).2 = pattern := by
      match pattern with
      | [] => exact absurd rfl hne
      | c :: rest =>
        by_cases hc : c = '*'
        · subst hc
          rw [stripStars_star] at hstar
          exact absurd rfl hstar
        · rw [stripStars_of_ne rest hc]
    have hchunk : (scanBody false (stripStars pattern).2).1 ≠ [] := by
      rw [hsame]
      match pattern with
      | [] => exact absurd rfl hne
      | c :: rest =>
        have hc : c ≠ '*' := by
          intro hceq
          subst hceq
          rw [stripStars_star] at hstar
          exact absurd rfl hstar
        exact scanBody_cons_ne_nil rest hc
    have hpos : 0 < (scanBody false (stripStars pattern).2).1.length :=
      List.length_pos.mpr hchunk
    rw [hsame] at hbody hpos ⊢
    omega

/-- Outcome of the star-shift loop: a final answer for `Match`, or the
remainder `t` to continue the pattern loop with. -/
inductive StarOut where
  | stop (b : Bool)
  | cont (t : List Char)

/-- The inner loop of `Match` after a star: retry the chunk while shifting
the name one character at a time, never across a `/`.  `rest` is the
pattern remaining after the chunk (Go's `len(pattern)`). -/
def starLoopFind (chunk rest : List Char) : List Char → StarOut
  | [] => .stop false
  | c :: cs =>
      if c = '/' then .stop false
      else
        match matchChunk chunk cs false with
        | some (t, true) =>
            if rest.isEmpty && !t.isEmpty then starLoopFind chunk rest cs
            else .cont t
        | some (_, false) => starLoopFind chunk rest cs
        | none => .stop false

/-- Model of Go `filepath.Match` (stdlib, unix separator), as used by
`ShouldExclude`: the boolean match result, with a bad pattern yielding
`false` (the caller discards the error). -/
def goMatchAux (pattern name : List Char) : Bool :=
  if hp : pattern = [] then name.isEmpty
  else
    let sc := scanChunk pattern
    if hb : sc.1 = true ∧ sc.2.1 = [] then !(name.contains '/')
    else
      match matchChunk sc.2.1 name false with
      | some (t, true) =>
          if t.isEmpty || !sc.2.2.isEmpty then goMatchAux sc.2.2 t
          else if sc.1 then
            match starLoopFind sc.2.1 sc.2.2 name with
            | .stop b => b
            | .cont t2 => goMatchAux sc.2.2 t2
          else false
      | some (_, false) =>
          if sc.1 then
            match starLoopFind sc.2.1 sc.2.2 name with
            | .stop b => b
            | .cont t2 => goMatchAux sc.2.2 t2
          else false
      | none => false
termination_by pattern.length
decreasing_by
  all_goals exact scanChunk_rest_length hp hb

/-- Model of Go `filepath.Base` (stdlib, unix): strip trailing slashes, keep the
last element; `"."` for the empty path, `"/"` when only slashes remain. -/
def goBase (path : List Char) : List Char :=
  if path.isEmpty then ['.']
  else
    let p1 := (path.reverse.dropWhile (fun c => c == '/')).reverse
    let p2 := (p1.reverse.takeWhile (fun c => !(c == '/'))).reverse
    if p2.isEmpty then ['/'] else p2

/-- Go `filepath.ToSlash` is the identity on unix (`Separator` is already
`'/'`). -/
def toSlash (path : List Char) : List Char := path

/-- Model of Go `strings.Contains`: `needle` occurs as a contiguous substring. -/
def containsList (hay needle : List Char) : Bool :=
  hay.tails.any (fun t => needle.isPrefixOf t)

/-- Model of `segmentMatches` (internal/scan/exclude.go): the path equals the
segment, ends with `"/" + segment`, or contains `"/" + segment + "/"`. -/
def segmentMatches (path segment : List Char) : Bool :=
  path == segment
    || ('/' :: segment).isSuffixOf path
    || containsList path ('/' :: (segment ++ ['/']))

/-- Whether a pattern is treated as a glob
(`strings.ContainsAny(p, "*?")`). -/
def isGlobPattern (p : String) : Bool :=
  p.toList.any (fun c => c == '*' || c == '?')

/-- Model of `ShouldExclude` (internal/scan/exclude.go): with no patterns, false;
otherwise any pattern excludes — a glob pattern is matched against the
path's base name, any other pattern via `segmentMatches` against the
slash-normalized path. -/
def ShouldExclude (path : String) (patterns : List String) : Bool :=
  if patterns.isEmpty then false
  else
    let base := goBase path.toList
    let normalized := toSlash path.toList
    patterns.any (fun p =>
      if isGlobPattern p then goMatchAux p.toList base
      else segmentMatches normalized p.toList)

/-- Split a slash-normalized path into its components. -/
def splitSlash : List Char → List (List Char)
  | [] => [[]]
  | c :: cs =>
      let r := splitSlash cs
      if c = '/' then [] :: r
      else (c :: r.headD []) :: r.tail

/-- Modelled from the spec's words (for the refinement comparison with
`segmentMatches`): a non-glob pattern matches iff it "appears as a
complete component of the slash-normalized path". -/
def specComponentMatch (path pattern : String) : Bool :=
  (splitSlash (toSlash path.toList)).any (fun comp => comp == pattern.toList)

/-- Modelled from the spec's words: the claimed behavior of
`ShouldExclude` — some pattern matches, where a glob pattern is matched
against the basename and any other pattern must be a complete component. -/
def specExcluded (path : String) (patterns : List String) : Bool :=
  patterns.any (fun p =>
    if isGlobPattern p then goMatchAux p.toList (goBase path.toList)
    else specComponentMatch path p)

/-- The columns `UpsertFile` must never touch: id, key, digest, status,
hashed-at. -/
def hashView (f : FileRow) : Int × Int × String × Option String × HashStatus × Option Int :=
  (f.id, f.folderId, f.path, f.hash, f.hashStatus, f.hashedAt)

/-- The arguments of one `UpsertFile` call. -/
structure UpsertOp where
  folderId : Int
  path : String
  size : Int
  mtime : Int
  inode : Int
  deviceId : Option Int
deriving DecidableEq, Repr

/-- A sequence of `UpsertFile` calls applied to the store. -/
def applyUpserts (ops : List UpsertOp) (s : DBState) : DBState :=
  ops.foldl (fun st o => (upsertFile st o.folderId o.path o.size o.mtime o.inode o.deviceId).1) s

/-- The `(folder_id, path)` unique-key predicate. -/
def keyPred (folderId : Int) (path : String) (f : FileRow) : Bool :=
  f.folderId == folderId && f.path == path

end Ditto

namespace Ditto

theorem map_hashView_upsert (s : DBState) (folderId : Int) (path : String)
    (size mtime inode : Int) (dev : Option Int) :
    ∃ ext, (upsertFile s folderId path size mtime inode dev).1.files.map hashView
      = s.files.map hashView ++ ext := by
  unfold upsertFile
  cases hf : s.files.find? (fun f => f.folderId == folderId && f.path == path) with
  | some f =>
    refine ⟨[], ?_⟩
    simp only [List.map_map, List.append_nil]
    apply List.map_congr_left
    intro g _
    by_cases h1 : g.folderId = folderId
    · by_cases h2 : g.path = path
      · simp [hashView, h1, h2]
      · simp [hashView, h2]
    · simp [hashView, h1]
  | none =>
    refine ⟨[hashView (newFileRow s folderId path size mtime inode dev)], ?_⟩
    simp [List.map_append]

theorem map_hashView_applyUpserts (ops : List UpsertOp) (s : DBState) :
    ∃ ext, (applyUpserts ops s).files.map hashView = s.files.map hashView ++ ext := by
  induction ops generalizing s with
  | nil => exact ⟨[], by simp [applyUpserts]⟩
  | cons o rest ih =>
    obtain ⟨e1, h1⟩ := map_hashView_upsert s o.folderId o.path o.size o.mtime o.inode o.deviceId
    obtain ⟨e2, h2⟩ :=
      ih (upsertFile s o.folderId o.path o.size o.mtime o.inode o.deviceId).1
    refine ⟨e1 ++ e2, ?_⟩
    simp only [applyUpserts, List.foldl_cons] at h2 ⊢
    rw [h2, h1, List.append_assoc]

theorem upsertFilesBatch_fst (folderId : Int) :
    ∀ (rows : List BatchRow) (s : DBState) (acc : List Int),
      (rows.foldl
        (fun acc r =>
          let (s', i) := upsertFile acc.1 folderId r.path r.size r.mtime r.inode r.deviceId
          (s', acc.2 ++ [i]))
        (s, acc)).1
      = rows.foldl
          (fun st r => (upsertFile st folderId r.path r.size r.mtime r.inode r.deviceId).1) s := by
  intro rows
  induction rows with
  | nil => intro s acc; rfl
  | cons r rest ih =>
    intro s acc
    simp only [List.foldl_cons]
    exact ih _ _

theorem map_hashView_upsertBatch (s : DBState) (folderId : Int) (rows : List BatchRow) :
    ∃ ext, (upsertFilesBatch s folderId rows).1.files.map hashView
      = s.files.map hashView ++ ext := by
  have hfst := upsertFilesBatch_fst folderId rows s []
  unfold upsertFilesBatch
  rw [hfst]
  have : rows.foldl
      (fun st r => (upsertFile st folderId r.path r.size r.mtime r.inode r.deviceId).1) s
    = applyUpserts (rows.map (fun r =>
        { folderId := folderId, path := r.path, size := r.size, mtime := r.mtime,
          inode := r.inode, deviceId := r.deviceId })) s := by
    unfold applyUpserts
    rw [List.foldl_map]
  rw [this]
  exact map_hashView_applyUpserts _ s

end Ditto

namespace Ditto

/-- C5: an upsert on an existing `(folder, path)` key rewrites only
size/mtime/inode/device of that row: positionally, every pre-existing row
keeps its id, key, digest, hash_status and hashed_at under `UpsertFile`,
`UpsertFilesBatch`, and any sequence of upserts; hence a row that reached
`hash_status = done` with digest `d` still has digest `d` and status
`done` afterwards. -/
theorem c5_upsert_never_touches_digest (s : DBState) (folderId : Int) (path : String)
    (size mtime inode : Int) (dev : Option Int) (rows : List BatchRow) (ops : List UpsertOp) :
    (∃ ext, (upsertFile s folderId path size mtime inode dev).1.files.map hashView
       = s.files.map hashView ++ ext)
    ∧ (∃ ext, (upsertFilesBatch s folderId rows).1.files.map hashView
       = s.files.map hashView ++ ext)
    ∧ (∀ (i : Nat) (h : i < s.files.length) (d : String),
        (s.files.get ⟨i, h⟩).hashStatus = .done → (s.files.get ⟨i, h⟩).hash = some d →
        ∃ h' : i < (applyUpserts ops s).files.length,
          ((applyUpserts ops s).files.get ⟨i, h'⟩).hash = some d ∧
          ((applyUpserts ops s).files.get ⟨i, h'⟩).hashStatus = .done) := by
  refine ⟨map_hashView_upsert s folderId path size mtime inode dev,
    map_hashView_upsertBatch s folderId rows, ?_⟩
  intro i h d hdone hhash
  obtain ⟨ext, hext⟩ := map_hashView_applyUpserts ops s
  have hlen : (applyUpserts ops s).files.length = s.files.length + ext.length := by
    have := congrArg List.length hext
    simpa using this
  have h' : i < (applyUpserts ops s).files.length := by omega
  refine ⟨h', ?_⟩
  have hv : hashView ((applyUpserts ops s).files.get ⟨i, h'⟩)
      = hashView (s.files.get ⟨i, h⟩) := by
    have e := congrArg (fun l => l[i]?) hext
    simp only [List.getElem?_map] at e
    rw [List.getElem?_append_left (by simpa using h)] at e
    rw [List.getElem?_map] at e
    rw [List.getElem?_eq_getElem h', List.getElem?_eq_getElem h] at e
    simp only [Option.map_some', Option.some.injEq] at e
    simpa [List.get_eq_getElem] using e
  have hv1 := congrArg (fun t => t.2.2.2.1) hv
  have hv2 := congrArg (fun t => t.2.2.2.2.1) hv
  simp only [hashView] at hv1 hv2
  exact ⟨by rw [hv1, hhash], by rw [hv2, hdone]⟩

/-- Witness for C5 at a concrete store: a row with `hash_status = done`
and digest `"d"` keeps both across a subsequent upsert of its key. -/
theorem c5_upsert_never_touches_digest_witness :
    let f0 : FileRow :=
      { id := 1, folderId := 10, path := "a.txt", size := 5, mtime := 0, inode := 7,
        deviceId := none, hash := some "d", hashStatus := .done, hashedAt := some 3 }
    let s0 : DBState := { files := [f0], fileScan := [] }
    let ops0 : List UpsertOp :=
      [{ folderId := 10, path := "a.txt", size := 6, mtime := 1, inode := 8, deviceId := none }]
    ∃ h' : 0 < (applyUpserts ops0 s0).files.length,
      ((applyUpserts ops0 s0).files.get ⟨0, h'⟩).hash = some "d" ∧
      ((applyUpserts ops0 s0).files.get ⟨0, h'⟩).hashStatus = .done := by
  intro f0 s0 ops0
  exact (c5_upsert_never_touches_digest s0 10 "a.txt" 6 1 8 none [] ops0).2.2
    0 (by decide) "d" (by decide) (by decide)

/-- C10: `ResetFileHashStatusToPending` touches only the row with the given
id when it is currently `hashing` (moving it to `pending`); rows in any
other status, and rows with other ids, stay exactly as they were.
`ResetHashStatusHashingToPending` likewise touches only rows of the scan's
ledger currently in `hashing`.  Neither changes the ledger or the number
of rows. -/
theorem c10_reset_only_hashing (s : DBState) (fid scanId : Int) :
    (∀ f ∈ s.files, (f.hashStatus ≠ .hashing ∨ f.id ≠ fid) →
       f ∈ (resetFileHashStatusToPending s fid).files)
    ∧ (∀ f ∈ s.files, f.hashStatus = .hashing → f.id = fid →
       { f with hashStatus := .pending } ∈ (resetFileHashStatusToPending s fid).files)
    ∧ (resetFileHashStatusToPending s fid).fileScan = s.fileScan
    ∧ (resetFileHashStatusToPending s fid).files.length = s.files.length
    ∧ (∀ f ∈ s.files, (f.hashStatus ≠ .hashing ∨ inScanLedger s scanId f.id = false) →
       f ∈ (resetHashStatusHashingToPending s scanId).files)
    ∧ (∀ f ∈ s.files, f.hashStatus = .hashing → inScanLedger s scanId f.id = true →
       { f with hashStatus := .pending } ∈ (resetHashStatusHashingToPending s scanId).files)
    ∧ (resetHashStatusHashingToPending s scanId).fileScan = s.fileScan
    ∧ (resetHashStatusHashingToPending s scanId).files.length = s.files.length := by
  refine ⟨?_, ?_, rfl, by simp [resetFileHashStatusToPending], ?_, ?_, rfl,
    by simp [resetHashStatusHashingToPending]⟩
  · intro f hf hcond
    have himg : (if f.id == fid && f.hashStatus == .hashing then
        { f with hashStatus := .pending } else f) = f := by
      rcases hcond with hst | hid
      · rw [if_neg]
        simp only [Bool.and_eq_true, beq_iff_eq]
        intro hc
        exact hst hc.2
      · rw [if_neg]
        simp only [Bool.and_eq_true, beq_iff_eq]
        intro hc
        exact hid hc.1
    rw [← himg]
    exact List.mem_map_of_mem _ hf
  · intro f hf hst hid
    have himg : (if f.id == fid && f.hashStatus == .hashing then
        { f with hashStatus := .pending } else f) = { f with hashStatus := .pending } := by
      rw [if_pos]
      simp only [Bool.and_eq_true, beq_iff_eq]
      exact ⟨hid, hst⟩
    rw [← himg]
    exact List.mem_map_of_mem _ hf
  · intro f hf hcond
    have himg : (if inScanLedger s scanId f.id && f.hashStatus == .hashing then
        { f with hashStatus := .pending } else f) = f := by
      rcases hcond with hst | hled
      · rw [if_neg]
        simp only [Bool.and_eq_true, beq_iff_eq]
        intro hc
        exact hst hc.2
      · rw [if_neg]
        simp only [Bool.and_eq_true, beq_iff_eq]
        intro hc
        rw [hled] at hc
        exact Bool.false_ne_true hc.1
    rw [← himg]
    exact List.mem_map_of_mem _ hf
  · intro f hf hst hled
    have himg : (if inScanLedger s scanId f.id && f.hashStatus == .hashing then
        { f with hashStatus := .pending } else f) = { f with hashStatus := .pending } := by
      rw [if_pos]
      simp only [Bool.and_eq_true, beq_iff_eq]
      exact ⟨hled, hst⟩
    rw [← himg]
    exact List.mem_map_of_mem _ hf

/-- Witness for C10 at a concrete store: a `done` row with its digest is
untouched by both reset primitives, and a `hashing` row of the scan's
ledger moves to `pending`. -/
theorem c10_reset_only_hashing_witness :
    let fDone : FileRow :=
      { id := 1, folderId := 10, path := "a", size := 5, mtime := 0, inode := 7,
        deviceId := none, hash := some "d", hashStatus := .done, hashedAt := some 3 }
    let fHashing : FileRow :=
      { id := 2, folderId := 10, path := "b", size := 5, mtime := 0, inode := 8,
        deviceId := none, hash := none, hashStatus := .hashing, hashedAt := none }
    let s0 : DBState :=
      { files := [fDone, fHashing], fileScan := [{ fileId := 2, scanId := 4 }] }
    fDone ∈ (resetFileHashStatusToPending s0 1).files ∧
    { fHashing with hashStatus := HashStatus.pending }
      ∈ (resetHashStatusHashingToPending s0 4).files := by
  intro fDone fHashing s0
  exact ⟨(c10_reset_only_hashing s0 1 4).1 fDone (by decide) (Or.inl (by decide)),
    (c10_reset_only_hashing s0 1 4).2.2.2.2.2.1 fHashing (by decide) (by decide) (by decide)⟩

theorem find?_map_of_pred_inv {α : Type} {q : α → Bool} {u : α → α}
    (hq : ∀ x, q (u x) = q x) :
    ∀ l : List α, List.find? q (l.map u) = (List.find? q l).map u := by
  intro l
  induction l with
  | nil => rfl
  | cons a t ih =>
    simp only [List.map_cons, List.find?_cons]
    rw [hq a]
    cases hqa : q a
    · exact ih
    · rfl

theorem find?_append_of_none {α : Type} {q : α → Bool} {l1 l2 : List α}
    (h : List.find? q l1 = none) :
    List.find? q (l1 ++ l2) = List.find? q l2 := by
  induction l1 with
  | nil => rfl
  | cons a t ih =>
    rw [List.cons_append]
    simp only [List.find?_cons] at h ⊢
    cases hqa : q a
    · rw [hqa] at h
      exact ih h
    · rw [hqa] at h
      exact Option.noConfusion h

theorem countP_map_eq {α : Type} {q : α → Bool} {u : α → α}
    (hq : ∀ x, q (u x) = q x) :
    ∀ l : List α, List.countP q (l.map u) = List.countP q l := by
  intro l
  induction l with
  | nil => rfl
  | cons a t ih =>
    simp only [List.map_cons, List.countP_cons]
    rw [hq a, ih]

/-- The conflict-branch update of `upsertFile` does not change the key. -/
theorem keyPred_upsert_inv (folderId : Int) (path : String)
    (size mtime inode : Int) (dev : Option Int) (F : Int) (p : String) :
    ∀ g : FileRow,
      keyPred F p (if g.folderId == folderId && g.path == path then
        { g with size := size, mtime := mtime, inode := inode, deviceId := dev }
      else g) = keyPred F p g := by
  intro g
  by_cases hc : (g.folderId == folderId && g.path == path) = true
  · rw [if_pos hc]
    rfl
  · rw [if_neg hc]

/-- The row inserted by a no-conflict `upsertFile` satisfies its key. -/
theorem keyPred_new_row (s : DBState) (F : Int) (p : String)
    (size mtime inode : Int) (dev : Option Int) :
    keyPred F p (newFileRow s F p size mtime inode dev) = true := by
  simp [keyPred, newFileRow]

theorem insertFileScan_mem_self (s : DBState) (fid c : Int) :
    (⟨fid, c⟩ : FileScanRow) ∈ (insertFileScan s fid c).fileScan := by
  unfold insertFileScan
  by_cases hany : s.fileScan.any (fun e => e.fileId == fid && e.scanId == c) = true
  · rw [if_pos hany]
    obtain ⟨e, he, hpe⟩ := List.any_eq_true.mp hany
    simp only [Bool.and_eq_true, beq_iff_eq] at hpe
    have : e = ⟨fid, c⟩ := by
      cases e
      simp_all
    rwa [this] at he
  · rw [if_neg hany]
    exact List.mem_append_right _ (List.mem_singleton.mpr rfl)

theorem insertFileScan_mono (s : DBState) (fid c : Int) {e : FileScanRow}
    (he : e ∈ s.fileScan) : e ∈ (insertFileScan s fid c).fileScan := by
  unfold insertFileScan
  split
  · exact he
  · exact List.mem_append_left _ he

theorem insertFileScan_noop (s : DBState) (fid c : Int)
    (h : (⟨fid, c⟩ : FileScanRow) ∈ s.fileScan) : insertFileScan s fid c = s := by
  unfold insertFileScan
  rw [if_pos]
  exact List.any_eq_true.mpr ⟨⟨fid, c⟩, h, by simp⟩

theorem insertFileScanBatch_mono (c : Int) :
    ∀ (ids : List Int) (s : DBState) (e : FileScanRow),
      e ∈ s.fileScan → e ∈ (insertFileScanBatch s ids c).fileScan := by
  intro ids
  induction ids with
  | nil => intro s e he; exact he
  | cons i t ih =>
    intro s e he
    exact ih _ _ (insertFileScan_mono s i c he)

theorem insertFileScanBatch_mem (c : Int) :
    ∀ (ids : List Int) (s : DBState) (f : Int),
      f ∈ ids → (⟨f, c⟩ : FileScanRow) ∈ (insertFileScanBatch s ids c).fileScan := by
  intro ids
  induction ids with
  | nil => intro s f hf; exact absurd hf (List.not_mem_nil f)
  | cons i t ih =>
    intro s f hf
    rcases List.mem_cons.mp hf with heq | hmem
    · subst heq
      exact insertFileScanBatch_mono c t _ _ (insertFileScan_mem_self s f c)
    · exact ih _ f hmem

theorem insertFileScanBatch_noop (c : Int) :
    ∀ (ids : List Int) (s : DBState),
      (∀ f ∈ ids, (⟨f, c⟩ : FileScanRow) ∈ s.fileScan) →
      insertFileScanBatch s ids c = s := by
  intro ids
  induction ids with
  | nil => intro s _; rfl
  | cons i t ih =>
    intro s hall
    have h1 : insertFileScan s i c = s :=
      insertFileScan_noop s i c (hall i (List.mem_cons_self i t))
    show insertFileScanBatch (insertFileScan s i c) t c = s
    rw [h1]
    exact ih s (fun f hf => hall f (List.mem_cons_of_mem i hf))

theorem upsertFile_eq_of_find {s : DBState} {F : Int} {p : String} {f : FileRow}
    (hf : s.files.find? (fun f => f.folderId == F && f.path == p) = some f)
    (sz mt ino : Int) (dv : Option Int) :
    upsertFile s F p sz mt ino dv =
      ({ s with files := s.files.map (fun g =>
          if g.folderId == F && g.path == p then
            { g with size := sz, mtime := mt, inode := ino, deviceId := dv }
          else g) },
       f.id) := by
  simp only [upsertFile, hf]

theorem upsertFile_eq_of_none {s : DBState} {F : Int} {p : String}
    (hf : s.files.find? (fun f => f.folderId == F && f.path == p) = none)
    (sz mt ino : Int) (dv : Option Int) :
    upsertFile s F p sz mt ino dv =
      ({ s with files := s.files ++ [newFileRow s F p sz mt ino dv] }, nextFileId s) := by
  simp only [upsertFile, hf]

theorem keyPred_beq_new_row (s : DBState) (F : Int) (p : String)
    (sz mt ino : Int) (dv : Option Int) :
    ((newFileRow s F p sz mt ino dv).folderId == F
      && (newFileRow s F p sz mt ino dv).path == p) = true := by
  simp [newFileRow]

/-- C9: `UpsertFile` is idempotent on File identity — a second upsert of
the same `(folder, path)` key returns the same id, and a store with at
most one row for the key still has exactly one afterwards.
`InsertFileScan` and `InsertFileScanBatch` are idempotent — inserting an
already-present `(file, scan)` pair is a no-op (no extra ledger row). -/
theorem c9_upsert_ledger_idempotent (s : DBState) (F : Int) (p : String)
    (sz1 mt1 in1 : Int) (dv1 : Option Int) (sz2 mt2 in2 : Int) (dv2 : Option Int)
    (fid c : Int) (ids : List Int) :
    ((upsertFile (upsertFile s F p sz1 mt1 in1 dv1).1 F p sz2 mt2 in2 dv2).2
       = (upsertFile s F p sz1 mt1 in1 dv1).2)
    ∧ (List.countP (keyPred F p) s.files ≤ 1 →
       List.countP (keyPred F p)
         (upsertFile (upsertFile s F p sz1 mt1 in1 dv1).1 F p sz2 mt2 in2 dv2).1.files = 1)
    ∧ ((⟨fid, c⟩ : FileScanRow) ∈ s.fileScan → insertFileScan s fid c = s)
    ∧ (insertFileScan (insertFileScan s fid c) fid c = insertFileScan s fid c)
    ∧ (insertFileScanBatch (insertFileScanBatch s ids c) ids c
       = insertFileScanBatch s ids c) := by
  have hkey : ∀ g : FileRow,
      (fun f => f.folderId == F && f.path == p)
        ((fun g => if g.folderId == F && g.path == p then
            { g with size := sz1, mtime := mt1, inode := in1, deviceId := dv1 }
          else g) g)
      = (fun f => f.folderId == F && f.path == p) g := by
    intro g
    exact keyPred_upsert_inv F p sz1 mt1 in1 dv1 F p g
  -- the state and find? result after the first upsert, in both cases
  constructor
  · -- same id on double upsert
    cases hf : s.files.find? (fun f => f.folderId == F && f.path == p) with
    | some f =>
      rw [upsertFile_eq_of_find hf sz1 mt1 in1 dv1]
      have h2 : (List.find? (fun f => f.folderId == F && f.path == p)
          (s.files.map (fun g => if g.folderId == F && g.path == p then
            { g with size := sz1, mtime := mt1, inode := in1, deviceId := dv1 }
          else g)))
          = some (if f.folderId == F && f.path == p then
              { f with size := sz1, mtime := mt1, inode := in1, deviceId := dv1 }
            else f) := by
        rw [find?_map_of_pred_inv hkey, hf]
        rfl
      rw [upsertFile_eq_of_find h2 sz2 mt2 in2 dv2]
      have hkf : (f.folderId == F && f.path == p) = true := by
        have := List.find?_some hf
        simpa using this
      rw [if_pos hkf]
    | none =>
      rw [upsertFile_eq_of_none hf sz1 mt1 in1 dv1]
      have h2 : List.find? (fun f => f.folderId == F && f.path == p)
          (s.files ++ [newFileRow s F p sz1 mt1 in1 dv1])
          = some (newFileRow s F p sz1 mt1 in1 dv1) := by
        rw [find?_append_of_none hf]
        exact List.find?_cons_of_pos _ (keyPred_beq_new_row s F p sz1 mt1 in1 dv1)
      rw [upsertFile_eq_of_find h2 sz2 mt2 in2 dv2]
      rfl
  refine ⟨?_, insertFileScan_noop s fid c,
    insertFileScan_noop _ fid c (insertFileScan_mem_self s fid c),
    insertFileScanBatch_noop c ids _ (fun f hf => insertFileScanBatch_mem c ids s f hf)⟩
  -- exactly one row for the key after a double upsert
  intro hle
  cases hf : s.files.find? (fun f => f.folderId == F && f.path == p) with
  | some f =>
    have hkf : keyPred F p f = true := by
      have := List.find?_some hf
      simpa [keyPred] using this
    have hpos : 0 < List.countP (keyPred F p) s.files :=
      List.countP_pos_iff.mpr ⟨f, List.mem_of_find?_eq_some hf, hkf⟩
    have hone : List.countP (keyPred F p) s.files = 1 := by omega
    rw [upsertFile_eq_of_find hf sz1 mt1 in1 dv1]
    have h2 : (List.find? (fun f => f.folderId == F && f.path == p)
        (s.files.map (fun g => if g.folderId == F && g.path == p then
          { g with size := sz1, mtime := mt1, inode := in1, deviceId := dv1 }
        else g)))
        = some (if f.folderId == F && f.path == p then
            { f with size := sz1, mtime := mt1, inode := in1, deviceId := dv1 }
          else f) := by
      rw [find?_map_of_pred_inv hkey, hf]
      rfl
    rw [upsertFile_eq_of_find h2 sz2 mt2 in2 dv2]
    dsimp only
    rw [countP_map_eq (fun g => keyPred_upsert_inv F p sz2 mt2 in2 dv2 F p g),
        countP_map_eq (fun g => keyPred_upsert_inv F p sz1 mt1 in1 dv1 F p g)]
    exact hone
  | none =>
    have hzero : List.countP (keyPred F p) s.files = 0 :=
      List.countP_eq_zero.mpr (fun a ha => by
        have := List.find?_eq_none.mp hf a ha
        simpa [keyPred] using this)
    rw [upsertFile_eq_of_none hf sz1 mt1 in1 dv1]
    have h2 : List.find? (fun f => f.folderId == F && f.path == p)
        (s.files ++ [newFileRow s F p sz1 mt1 in1 dv1])
        = some (newFileRow s F p sz1 mt1 in1 dv1) := by
      rw [find?_append_of_none hf]
      exact List.find?_cons_of_pos _ (keyPred_beq_new_row s F p sz1 mt1 in1 dv1)
    rw [upsertFile_eq_of_find h2 sz2 mt2 in2 dv2]
    dsimp only
    rw [countP_map_eq (fun g => keyPred_upsert_inv F p sz2 mt2 in2 dv2 F p g)]
    rw [List.countP_append, hzero]
    simp [List.countP_cons, keyPred, newFileRow]

/-- Witness for C9 at a concrete store: double-upsert returns the same id
with one row for the key, and a duplicate ledger insert is a no-op. -/
theorem c9_upsert_ledger_idempotent_witness :
    let s0 : DBState := { files := [], fileScan := [{ fileId := 3, scanId := 4 }] }
    ((upsertFile (upsertFile s0 10 "x" 1 2 3 none).1 10 "x" 5 6 7 none).2
       = (upsertFile s0 10 "x" 1 2 3 none).2)
    ∧ List.countP (keyPred 10 "x")
        (upsertFile (upsertFile s0 10 "x" 1 2 3 none).1 10 "x" 5 6 7 none).1.files = 1
    ∧ insertFileScan s0 3 4 = s0 := by
  intro s0
  refine ⟨(c9_upsert_ledger_idempotent s0 10 "x" 1 2 3 none 5 6 7 none 3 4 []).1,
    (c9_upsert_ledger_idempotent s0 10 "x" 1 2 3 none 5 6 7 none 3 4 []).2.1 (by decide),
    (c9_upsert_ledger_idempotent s0 10 "x" 1 2 3 none 5 6 7 none 3 4 []).2.2.1 (by decide)⟩

end Ditto

namespace Ditto

/-- Counterexample for C4: a fully complete scan (both `completed_at` and
`hash_completed_at` set) is NOT skipped by the dequeue worker — `runOneScan`
still runs the hash phase for it (the claim says it runs neither phase,
i.e. the phase list would be empty). -/
theorem c4_counterexample :
    let sn : ScanRow := { id := 1, rootPath := "/d", completedAt := some 5,
                          hashCompletedAt := some 6 }
    sn.completedAt.isSome = true ∧ sn.hashCompletedAt.isSome = true ∧
    runOneScan none sn = [PhaseOp.hashPhase] ∧
    ([PhaseOp.hashPhase] : List PhaseOp) ≠ [] := by
  decide

/-- C4 as amended: the dequeue worker skips only the scan pipeline (iff
`completed_at` is set) and always runs the hash phase; the fully-complete
check (both timestamps set) exists only in the continue handler, which
refuses to enqueue such a scan. -/
theorem c4_amended_orchestrator_never_skips_hash (sn : ScanRow) (r : Option String) :
    (PhaseOp.scanPipeline ∈ runOneScan r sn ↔ sn.completedAt = none)
    ∧ (sn.completedAt.isSome = true → runOneScan r sn = [PhaseOp.hashPhase])
    ∧ (continueEnqueues sn = false ↔
        (sn.completedAt.isSome = true ∧ sn.hashCompletedAt.isSome = true)) := by
  refine ⟨?_, ?_, ?_⟩
  · cases hc : sn.completedAt with
    | none =>
      cases r <;> simp [runOneScan, hc]
    | some t =>
      cases r <;> simp [runOneScan, hc]
  · intro hc
    cases hcc : sn.completedAt with
    | none => rw [hcc] at hc; exact absurd hc (by simp)
    | some t => cases r <;> simp [runOneScan, hcc]
  · unfold continueEnqueues
    cases sn.completedAt <;> cases sn.hashCompletedAt <;> simp

/-- Witness for the amended C4: with `completed_at` set, only the hash
phase runs; a fully-complete scan is not enqueued by the continue handler. -/
theorem c4_amended_orchestrator_never_skips_hash_witness :
    runOneScan none { id := 1, rootPath := "/d", completedAt := some 5,
                      hashCompletedAt := some 6 } = [PhaseOp.hashPhase]
    ∧ continueEnqueues { id := 1, rootPath := "/d", completedAt := some 5,
                         hashCompletedAt := some 6 } = false := by
  constructor
  · exact (c4_amended_orchestrator_never_skips_hash _ none).2.1 (by decide)
  · exact (c4_amended_orchestrator_never_skips_hash _ none).2.2.mpr (by decide)

/-- Counterexample for C3: with the default single worker, a per-file
error on the first job stops the worker: the second job is never
processed and the error is returned as the hash-phase result (via
`errCh`), while the claim says the phase continues to completion and
per-file errors are counted but not propagated. -/
theorem c3_counterexample :
    let j1 : FileRow :=
      { id := 1, folderId := 1, path := "a", size := 5, mtime := 0, inode := 1,
        deviceId := none, hash := none, hashStatus := .pending, hashedAt := none }
    let j2 : FileRow :=
      { id := 2, folderId := 1, path := "b", size := 5, mtime := 0, inode := 2,
        deviceId := none, hash := none, hashStatus := .pending, hashedAt := none }
    let s0 : DBState := { files := [j1, j2], fileScan := [⟨1, 7⟩, ⟨2, 7⟩] }
    let proc : DBState → FileRow → Except String (DBState × Bool) := fun st j =>
      if j.id == 1 then Except.error "io error"
      else Except.ok (updateFileHash st j.id "d" 0, false)
    (workerLoop proc [j1, j2] s0).firstErr = some "io error"
    ∧ (workerLoop proc [j1, j2] s0).processed = []
    ∧ (workerLoop proc [j1, j2] s0).errorCount = 1 := by
  decide

/-- C3 as amended: a failure while hashing one file increments the error
count and resets that file to pending, but the (single) consuming worker
stops at the first error, leaving the remaining jobs unprocessed, and
that first error is the result of `runHashPhaseProducerConsumer`; only
when every job processes successfully does the phase finish with no
error, having processed every job in order. -/
theorem c3_amended_worker_stops_on_error
    (proc : DBState → FileRow → Except String (DBState × Bool)) :
    (∀ (j : FileRow) (rest : List FileRow) (s : DBState) (e : String),
      proc s j = Except.error e →
        (workerLoop proc (j :: rest) s).firstErr = some e
        ∧ (workerLoop proc (j :: rest) s).errorCount = 1
        ∧ (workerLoop proc (j :: rest) s).processed = []
        ∧ (workerLoop proc (j :: rest) s).state = resetFileHashStatusToPending s j.id)
    ∧ (∀ (jobs : List FileRow) (s : DBState),
      (∀ (st : DBState) (j : FileRow), j ∈ jobs → ∃ r, proc st j = Except.ok r) →
        (workerLoop proc jobs s).firstErr = none
        ∧ (workerLoop proc jobs s).processed = jobs.map (·.id)) := by
  constructor
  · intro j rest s e herr
    refine ⟨?_, ?_, ?_, ?_⟩ <;> simp [workerLoop, herr]
  · intro jobs
    induction jobs with
    | nil => intro s _; exact ⟨rfl, rfl⟩
    | cons j t ih =>
      intro s hall
      obtain ⟨r, hr⟩ := hall s j (List.mem_cons_self j t)
      obtain ⟨ihe, ihp⟩ := ih r.1 (fun st j' hj' => hall st j' (List.mem_cons_of_mem j hj'))
      simp only [workerLoop, hr, List.map_cons]
      exact ⟨ihe, by rw [ihp]⟩

/-- Witness for the amended C3 at a concrete input: the error branch and
the all-success branch. -/
theorem c3_amended_worker_stops_on_error_witness :
    let j1 : FileRow :=
      { id := 1, folderId := 1, path := "a", size := 5, mtime := 0, inode := 1,
        deviceId := none, hash := none, hashStatus := .pending, hashedAt := none }
    let s0 : DBState := { files := [j1], fileScan := [] }
    let procBad : DBState → FileRow → Except String (DBState × Bool) :=
      fun _ _ => Except.error "io error"
    let procOk : DBState → FileRow → Except String (DBState × Bool) :=
      fun st j => Except.ok (updateFileHash st j.id "d" 0, false)
    (workerLoop procBad [j1] s0).firstErr = some "io error"
    ∧ (workerLoop procOk [j1] s0).processed = [1] := by
  intro j1 s0 procBad procOk
  constructor
  · exact ((c3_amended_worker_stops_on_error procBad).1 j1 [] s0 "io error" rfl).1
  · exact ((c3_amended_worker_stops_on_error procOk).2 [j1] s0
      (fun st j _ => ⟨(updateFileHash st j.id "d" 0, false), rfl⟩)).2

end Ditto

namespace Ditto

theorem hexChar_mem (n : Nat) : hexChar n ∈ hexDigits := by
  unfold hexChar
  rcases Nat.lt_or_ge n hexDigits.length with h | h
  · rw [List.getD_eq_getElem _ _ h]
    exact List.getElem_mem h
  · rw [List.getD_eq_default _ _ h]
    decide

/-- C8: `HashFile` digests the streamed content with SHA-256 and encodes
it as lowercase hex: the two reference vectors (empty input and "hello")
hold, and every output character is a lowercase hex digit. -/
theorem c8_hashfile_sha256_vectors :
    hashFileContent [] = "e3b0c44298fc1c149afbf4c8996fb92427ae41e4649b934ca495991b7852b855"
    ∧ hashFileContent (asciiBytes "hello")
        = "2cf24dba5fb0a30e26e83b2ac5b9e29e1b161e5c1fa7425e73043362938b9824"
    ∧ ∀ (content : List Nat) (ch : Char),
        ch ∈ (hashFileContent content).toList → ch ∈ hexDigits := by
  refine ⟨by decide, by decide, ?_⟩
  intro content ch hch
  have hlist : (hashFileContent content).toList = hexEncode (sha256Bytes content) := rfl
  rw [hlist] at hch
  unfold hexEncode at hch
  obtain ⟨sub, hsub, hchsub⟩ := List.mem_flatten.mp hch
  obtain ⟨b, _, hbsub⟩ := List.mem_map.mp hsub
  rw [← hbsub] at hchsub
  rcases List.mem_cons.mp hchsub with h1 | h2
  · rw [h1]; exact hexChar_mem _
  · rcases List.mem_cons.mp h2 with h3 | h4
    · rw [h3]; exact hexChar_mem _
    · exact absurd h4 (List.not_mem_nil ch)

/-- Witness for C8's universally quantified hex-alphabet clause at a
concrete character of a concrete digest. -/
theorem c8_hashfile_sha256_vectors_witness :
    'e' ∈ hexDigits := by
  exact c8_hashfile_sha256_vectors.2.2 [] 'e' (by decide)

/-- No engine-written digest is the empty string (digests are 64 hex
characters); needed because the Go code signals "no reuse available" with
the empty string. -/
def noEmptyDigests (s : DBState) : Prop := ∀ g ∈ s.files, g.hash ≠ some ""

/-- C6: the worker first tries same-scan inode reuse, then prior-scan
reuse on (inode, device, size); a non-empty hit is written via
`UpdateFileHash`, counted as reused, and the file is never opened; only
when both lookups miss is the file opened.  Hence a job whose
`(inode, device)` matches an existing digested file of the same size is
not opened and its stored digest comes from a file with the same
`(inode, device)`. -/
theorem c6_inode_reuse_no_open (s : DBState) (scanId : Int) (job : FileRow)
    (rr : Except String String) (now : Int) :
    (hashForInode s scanId job.inode job.deviceId ≠ "" →
      processClaimedJob s scanId job rr now =
        { state := updateFileHash s job.id (hashForInode s scanId job.inode job.deviceId) now,
          reused := true, opened := false, err := none,
          digest := some (hashForInode s scanId job.inode job.deviceId) })
    ∧ (hashForInode s scanId job.inode job.deviceId = "" →
       hashForInodeFromPreviousScan s scanId job.inode job.deviceId job.size ≠ "" →
      processClaimedJob s scanId job rr now =
        { state := updateFileHash s job.id
            (hashForInodeFromPreviousScan s scanId job.inode job.deviceId job.size) now,
          reused := true, opened := false, err := none,
          digest := some (hashForInodeFromPreviousScan s scanId job.inode job.deviceId job.size) })
    ∧ (hashForInode s scanId job.inode job.deviceId = "" →
       hashForInodeFromPreviousScan s scanId job.inode job.deviceId job.size = "" →
      (processClaimedJob s scanId job rr now).opened = true
      ∧ (∀ e, rr = Except.error e → (processClaimedJob s scanId job rr now).err = some e
          ∧ (processClaimedJob s scanId job rr now).state = s)
      ∧ (∀ h, rr = Except.ok h → processClaimedJob s scanId job rr now =
          { state := updateFileHash s job.id h now, reused := false, opened := true,
            err := none, digest := some h }))
    ∧ (noEmptyDigests s →
       (∃ g ∈ s.files, g.inode = job.inode ∧ g.deviceId = job.deviceId
          ∧ g.size = job.size ∧ g.hash.isSome = true) →
      (processClaimedJob s scanId job rr now).opened = false
      ∧ (processClaimedJob s scanId job rr now).reused = true
      ∧ (processClaimedJob s scanId job rr now).err = none
      ∧ ∃ g' ∈ s.files, g'.inode = job.inode ∧ g'.deviceId = job.deviceId
          ∧ ∃ d, g'.hash = some d
            ∧ (processClaimedJob s scanId job rr now).digest = some d
            ∧ (processClaimedJob s scanId job rr now).state = updateFileHash s job.id d now) := by
  have hA : hashForInode s scanId job.inode job.deviceId ≠ "" →
      processClaimedJob s scanId job rr now =
        { state := updateFileHash s job.id (hashForInode s scanId job.inode job.deviceId) now,
          reused := true, opened := false, err := none,
          digest := some (hashForInode s scanId job.inode job.deviceId) } := by
    intro h1
    unfold processClaimedJob
    rw [if_pos (by simpa [bne_iff_ne] using h1)]
  have hB : hashForInode s scanId job.inode job.deviceId = "" →
      hashForInodeFromPreviousScan s scanId job.inode job.deviceId job.size ≠ "" →
      processClaimedJob s scanId job rr now =
        { state := updateFileHash s job.id
            (hashForInodeFromPreviousScan s scanId job.inode job.deviceId job.size) now,
          reused := true, opened := false, err := none,
          digest := some (hashForInodeFromPreviousScan s scanId job.inode job.deviceId job.size) } := by
    intro h1 h2
    unfold processClaimedJob
    rw [if_neg (by simp [bne_iff_ne, h1]), if_pos (by simpa [bne_iff_ne] using h2)]
  refine ⟨hA, hB, ?_, ?_⟩
  · intro h1 h2
    unfold processClaimedJob
    rw [if_neg (by simp [bne_iff_ne, h1]), if_neg (by simp [bne_iff_ne, h2])]
    refine ⟨?_, ?_, ?_⟩
    · cases rr <;> rfl
    · intro e he
      subst he
      exact ⟨rfl, rfl⟩
    · intro h he
      subst he
      rfl
  · intro hnz ⟨g, hg, hgi, hgd, hgs, hgh⟩
    by_cases h1 : hashForInode s scanId job.inode job.deviceId = ""
    · -- prior-scan reuse path
      have hfind : (s.files.find? (fun f =>
          f.inode == job.inode && f.deviceId == job.deviceId
            && f.size == job.size && f.hash.isSome)).isSome = true := by
        apply List.find?_isSome.mpr
        exact ⟨g, hg, by simp [hgi, hgd, hgs, hgh]⟩
      obtain ⟨f2, hf2⟩ := Option.isSome_iff_exists.mp hfind
      have hf2p := List.find?_some hf2
      simp only [Bool.and_eq_true, beq_iff_eq, Option.isSome_iff_exists] at hf2p
      obtain ⟨⟨⟨hfi, hfd⟩, hfs⟩, d2, hd2⟩ := hf2p
      have hval : hashForInodeFromPreviousScan s scanId job.inode job.deviceId job.size = d2 := by
        unfold hashForInodeFromPreviousScan
        rw [hf2]
        simp [hd2]
      have hnz' : ∀ g ∈ s.files, g.hash ≠ some "" := hnz
      have hne2 : d2 ≠ "" := by
        intro hemp
        exact hnz' f2 (List.mem_of_find?_eq_some hf2) (by rw [hd2, hemp])
      have h2 : hashForInodeFromPreviousScan s scanId job.inode job.deviceId job.size ≠ "" := by
        rw [hval]; exact hne2
      rw [hB h1 h2]
      refine ⟨rfl, rfl, rfl, f2, List.mem_of_find?_eq_some hf2, hfi, hfd, d2, hd2, ?_, ?_⟩
      · simp [hval]
      · simp [hval]
    · -- same-scan inode reuse path
      cases hfind : s.files.find? (fun f =>
          inScanLedger s scanId f.id && f.inode == job.inode
            && f.deviceId == job.deviceId && f.hash.isSome) with
      | none =>
        exact absurd (by unfold hashForInode; rw [hfind]) h1
      | some f =>
        have hfp := List.find?_some hfind
        simp only [Bool.and_eq_true, beq_iff_eq, Option.isSome_iff_exists] at hfp
        obtain ⟨⟨⟨_, hfi⟩, hfd⟩, d0, hd0⟩ := hfp
        have hval : hashForInode s scanId job.inode job.deviceId = d0 := by
          unfold hashForInode
          rw [hfind]
          simp [hd0]
        rw [hA h1]
        refine ⟨rfl, rfl, rfl, f, List.mem_of_find?_eq_some hfind, hfi, hfd, d0, hd0, ?_, ?_⟩
        · simp [hval]
        · simp [hval]

end Ditto

namespace Ditto

/-- Witness for C6 at a concrete store: the job's `(inode, device)` match
a digested file of equal size, so the file is not opened and the job
counts as reused. -/
theorem c6_inode_reuse_no_open_witness :
    let g0 : FileRow :=
      { id := 1, folderId := 1, path := "a", size := 9, mtime := 0, inode := 5,
        deviceId := none, hash := some "abc", hashStatus := .done, hashedAt := some 1 }
    let job0 : FileRow :=
      { id := 2, folderId := 1, path := "b", size := 9, mtime := 0, inode := 5,
        deviceId := none, hash := none, hashStatus := .pending, hashedAt := none }
    let s0 : DBState := { files := [g0], fileScan := [] }
    (processClaimedJob s0 7 job0 (Except.error "io") 0).opened = false
    ∧ (processClaimedJob s0 7 job0 (Except.error "io") 0).reused = true := by
  intro g0 job0 s0
  have h := (c6_inode_reuse_no_open s0 7 job0 (Except.error "io") 0).2.2.2
    (by intro g hg; fin_cases hg; decide)
    ⟨g0, by decide, by decide, by decide, by decide, by decide⟩
  exact ⟨h.1, h.2.1⟩

theorem claim_none_state {s : DBState} {S : Int} {s' : DBState}
    (h : claimNextHashJob s S = (none, s')) : s' = s := by
  unfold claimNextHashJob at h
  cases hp : pendingHashJobs s S with
  | nil =>
    rw [hp] at h
    cases h
    rfl
  | cons f t =>
    rw [hp] at h
    simp at h

theorem claim_some_cases {s : DBState} {S : Int} {i : Int} {s' : DBState}
    (h : claimNextHashJob s S = (some i, s')) :
    ∃ f t, pendingHashJobs s S = f :: t ∧ f.id = i ∧
      s' = { s with files := s.files.map (fun g =>
        if g.id == f.id then { g with hashStatus := .hashing } else g) } := by
  unfold claimNextHashJob at h
  cases hp : pendingHashJobs s S with
  | nil =>
    rw [hp] at h
    simp at h
  | cons f t =>
    rw [hp] at h
    rw [Prod.mk.injEq] at h
    obtain ⟨h1, h2⟩ := h
    injection h1 with h1
    exact ⟨f, t, rfl, h1, h2.symm⟩

theorem mem_pendingHashJobs {s : DBState} {S : Int} {f : FileRow} :
    f ∈ pendingHashJobs s S ↔ f ∈ hashCandidates s S := by
  unfold pendingHashJobs
  exact (List.perm_insertionSort sizeDesc (hashCandidates s S)).mem_iff

theorem mem_hashCandidates_elim {s : DBState} {S : Int} {f : FileRow}
    (h : f ∈ hashCandidates s S) :
    f ∈ s.files ∧ f.hashStatus = .pending ∧ isHashCandidate s S f = true := by
  obtain ⟨hm, hc⟩ := List.mem_filter.mp h
  refine ⟨hm, ?_, hc⟩
  have hc2 := hc
  unfold isHashCandidate at hc2
  simp only [Bool.and_eq_true, beq_iff_eq] at hc2
  exact hc2.1.2

theorem claim_upd_pred_inv (fi k : Int) :
    ∀ x : FileRow,
      (fun g => g.id == k)
          ((fun g => if g.id == fi then { g with hashStatus := HashStatus.hashing } else g) x)
        = (fun g => g.id == k) x := by
  intro x
  dsimp only
  by_cases hx : x.id = fi
  · simp [hx]
  · simp [hx]

theorem claim_preserves_ids {s : DBState} {S : Int} :
    ((claimNextHashJob s S).2).files.map (·.id) = s.files.map (·.id) := by
  unfold claimNextHashJob
  cases hp : pendingHashJobs s S with
  | nil => rfl
  | cons f t =>
    simp only [List.map_map]
    apply List.map_congr_left
    intro g _
    by_cases hx : g.id = f.id
    · simp [hx]
    · simp [hx]

theorem claim_nodup_preserved {s : DBState} {S : Int} (hn : NodupIds s) :
    NodupIds (claimNextHashJob s S).2 := by
  unfold NodupIds
  rw [claim_preserves_ids]
  exact hn

theorem getStatus_eq_of_mem {s : DBState} (hn : NodupIds s) {f : FileRow}
    (hf : f ∈ s.files) : getStatus s f.id = some f.hashStatus := by
  unfold getStatus
  cases hfind : s.files.find? (fun g => g.id == f.id) with
  | none =>
    have := List.find?_eq_none.mp hfind f hf
    simp at this
  | some g =>
    have hgid : g.id = f.id := by
      have := List.find?_some hfind
      simpa using this
    have hgf : g = f :=
      List.inj_on_of_nodup_map hn (List.mem_of_find?_eq_some hfind) hf hgid
    rw [hgf]
    rfl

theorem claim_getStatus_other {s : DBState} {S : Int} {i : Int} {s' : DBState}
    (h : claimNextHashJob s S = (some i, s')) (k : Int) (hk : k ≠ i) :
    getStatus s' k = getStatus s k := by
  obtain ⟨f, t, hp, hid, hs'⟩ := claim_some_cases h
  subst hs'
  unfold getStatus
  rw [show (({ s with files := s.files.map (fun g =>
      if g.id == f.id then { g with hashStatus := HashStatus.hashing } else g) } :
        DBState)).files = s.files.map (fun g =>
      if g.id == f.id then { g with hashStatus := HashStatus.hashing } else g) from rfl]
  rw [find?_map_of_pred_inv (claim_upd_pred_inv f.id k)]
  cases hfind : s.files.find? (fun g => g.id == k) with
  | none => rfl
  | some g =>
    have hgid : g.id = k := by
      have := List.find?_some hfind
      simpa using this
    have hgne : g.id ≠ f.id := by
      rw [hgid, hid]
      exact hk
    simp [hgne]

theorem claim_getStatus_claimed {s : DBState} {S : Int} {i : Int} {s' : DBState}
    (hn : NodupIds s) (h : claimNextHashJob s S = (some i, s')) :
    getStatus s' i = some HashStatus.hashing := by
  obtain ⟨f, t, hp, hid, hs'⟩ := claim_some_cases h
  have hfc : f ∈ hashCandidates s S := mem_pendingHashJobs.mp (hp ▸ List.mem_cons_self f t)
  obtain ⟨hfm, hfp, _⟩ := mem_hashCandidates_elim hfc
  subst hs'
  unfold getStatus
  rw [show (({ s with files := s.files.map (fun g =>
      if g.id == f.id then { g with hashStatus := HashStatus.hashing } else g) } :
        DBState)).files = s.files.map (fun g =>
      if g.id == f.id then { g with hashStatus := HashStatus.hashing } else g) from rfl]
  rw [find?_map_of_pred_inv (claim_upd_pred_inv f.id i)]
  cases hfind : s.files.find? (fun g => g.id == i) with
  | none =>
    have := List.find?_eq_none.mp hfind f hfm
    rw [hid] at this
    simp at this
  | some g =>
    have hgid : g.id = i := by
      have := List.find?_some hfind
      simpa using this
    have hgeq : g.id = f.id := by
      rw [hgid, hid]
    simp [hgeq]

theorem claim_returned_pending {s : DBState} {S : Int} {i : Int} {s' : DBState}
    (hn : NodupIds s) (h : claimNextHashJob s S = (some i, s')) :
    getStatus s i = some HashStatus.pending := by
  obtain ⟨f, t, hp, hid, _⟩ := claim_some_cases h
  have hfc : f ∈ hashCandidates s S := mem_pendingHashJobs.mp (hp ▸ List.mem_cons_self f t)
  obtain ⟨hfm, hfp, _⟩ := mem_hashCandidates_elim hfc
  rw [← hid, getStatus_eq_of_mem hn hfm, hfp]

theorem claimIdsOver_not_mem :
    ∀ (scans : List Int) (s : DBState) (k : Int), NodupIds s →
      getStatus s k = some HashStatus.hashing → k ∉ claimIdsOver scans s := by
  intro scans
  induction scans with
  | nil => intro s k _ _; simp [claimIdsOver]
  | cons S rest ih =>
    intro s k hn hk
    unfold claimIdsOver
    cases hclaim : claimNextHashJob s S with
    | mk o s' =>
      cases o with
      | none =>
        have hss : s' = s := claim_none_state hclaim
        rw [hss]
        exact ih s k hn hk
      | some j =>
        have hjk : j ≠ k := by
          intro hjeq
          subst hjeq
          rw [claim_returned_pending hn hclaim] at hk
          simp at hk
        have hn' : NodupIds s' := by
          have := claim_nodup_preserved (s := s) (S := S) hn
          rwa [hclaim] at this
        have hk' : getStatus s' k = some HashStatus.hashing := by
          rw [claim_getStatus_other hclaim k (fun hkj => hjk hkj.symm)]
          exact hk
        intro hmem
        rcases List.mem_cons.mp hmem with heq | hmem2
        · exact hjk heq.symm
        · exact ih s' k hn' hk' hmem2

theorem claimIdsOver_nodup :
    ∀ (scans : List Int) (s : DBState), NodupIds s → (claimIdsOver scans s).Nodup := by
  intro scans
  induction scans with
  | nil => intro s _; exact List.nodup_nil
  | cons S rest ih =>
    intro s hn
    unfold claimIdsOver
    cases hclaim : claimNextHashJob s S with
    | mk o s' =>
      cases o with
      | none =>
        have hss : s' = s := claim_none_state hclaim
        rw [hss]
        exact ih s hn
      | some j =>
        have hn' : NodupIds s' := by
          have := claim_nodup_preserved (s := s) (S := S) hn
          rwa [hclaim] at this
        have hj : getStatus s' j = some HashStatus.hashing :=
          claim_getStatus_claimed hn hclaim
        exact List.Nodup.cons (claimIdsOver_not_mem rest s' j hn' hj) (ih s' hn')

end Ditto

namespace Ditto

/-- C2: `ClaimNextHashJob` as one atomic store transition — a successful
claim returns the id of a candidate row that was `pending`, moves exactly
that row to `hashing` leaving every other row and the ledger unchanged;
and over any sequence of claim transitions (with no intervening resets)
the returned file ids are pairwise distinct. -/
theorem c2_claim_atomic_exclusive (s : DBState) (S : Int) (hn : NodupIds s) :
    (∀ (i : Int) (s' : DBState), claimNextHashJob s S = (some i, s') →
      ∃ f ∈ s.files, f.id = i ∧ f.hashStatus = HashStatus.pending
        ∧ isHashCandidate s S f = true
        ∧ { f with hashStatus := HashStatus.hashing } ∈ s'.files
        ∧ (∀ g ∈ s.files, g.id ≠ i → g ∈ s'.files)
        ∧ s'.fileScan = s.fileScan ∧ s'.files.length = s.files.length)
    ∧ (∀ scans : List Int, (claimIdsOver scans s).Nodup) := by
  constructor
  · intro i s' h
    obtain ⟨f, t, hp, hid, hs'⟩ := claim_some_cases h
    have hfc : f ∈ hashCandidates s S := mem_pendingHashJobs.mp (hp ▸ List.mem_cons_self f t)
    obtain ⟨hfm, hfp, hfcand⟩ := mem_hashCandidates_elim hfc
    subst hs'
    refine ⟨f, hfm, hid, hfp, hfcand, ?_, ?_, rfl, by simp⟩
    · have himg : (if f.id == f.id then { f with hashStatus := HashStatus.hashing } else f)
          = { f with hashStatus := HashStatus.hashing } := by
        simp
      rw [← himg]
      exact List.mem_map_of_mem _ hfm
    · intro g hg hgne
      have himg : (if g.id == f.id then { g with hashStatus := HashStatus.hashing } else g)
          = g := by
        have : g.id ≠ f.id := by rw [hid]; exact hgne
        simp [this]
      rw [← himg]
      exact List.mem_map_of_mem _ hg
  · intro scans
    exact claimIdsOver_nodup scans s hn

/-- Witness for C2 at a concrete store with two equal-size pending
candidates: three successive claims return distinct ids, and the first
claim moves exactly one pending row to `hashing`. -/
theorem c2_claim_atomic_exclusive_witness :
    let f1 : FileRow :=
      { id := 1, folderId := 1, path := "a", size := 5, mtime := 0, inode := 1,
        deviceId := none, hash := none, hashStatus := .pending, hashedAt := none }
    let f2 : FileRow :=
      { id := 2, folderId := 1, path := "b", size := 5, mtime := 0, inode := 2,
        deviceId := none, hash := none, hashStatus := .pending, hashedAt := none }
    let s0 : DBState := { files := [f1, f2], fileScan := [⟨1, 1⟩, ⟨2, 1⟩] }
    (claimIdsOver [1, 1, 1] s0).Nodup
    ∧ ∃ f ∈ s0.files, f.id = 1 ∧ f.hashStatus = HashStatus.pending
        ∧ isHashCandidate s0 1 f = true
        ∧ { f with hashStatus := HashStatus.hashing } ∈ (claimNextHashJob s0 1).2.files := by
  intro f1 f2 s0
  have h := c2_claim_atomic_exclusive s0 1 (by unfold NodupIds; decide)
  refine ⟨h.2 [1, 1, 1], ?_⟩
  have hc : claimNextHashJob s0 1 = (some 1, (claimNextHashJob s0 1).2) := by decide
  obtain ⟨f, hf, hid, hpend, hcand, hmem, -⟩ := h.1 1 (claimNextHashJob s0 1).2 hc
  exact ⟨f, hf, hid, hpend, hcand, hmem⟩

end Ditto

namespace Ditto

theorem two_le_length_of_mem_ne {α : Type} {l : List α} {a b : α}
    (ha : a ∈ l) (hb : b ∈ l) (hab : a ≠ b) : 2 ≤ l.length := by
  match l with
  | [] => exact absurd ha (List.not_mem_nil a)
  | [x] =>
    rw [List.mem_singleton] at ha hb
    exact absurd (ha.trans hb.symm) hab
  | x :: y :: t =>
    simp only [List.length_cons]
    omega

theorem exists_mem_ne_of_nodup {α : Type} {l : List α} (hnd : l.Nodup) {a : α}
    (ha : a ∈ l) (h2 : 2 ≤ l.length) : ∃ b ∈ l, b ≠ a := by
  match l with
  | [] => simp at h2
  | [x] => simp at h2
  | x :: y :: t =>
    by_cases hx : x = a
    · have hxy : x ≠ y := by
        have hnotin := (List.nodup_cons.mp hnd).1
        intro hxyeq
        exact hnotin (hxyeq ▸ List.mem_cons_self y t)
      refine ⟨y, List.mem_cons_of_mem x (List.mem_cons_self y t), ?_⟩
      intro hy
      exact hxy (by rw [hx, ← hy])
    · exact ⟨x, List.mem_cons_self x (y :: t), hx⟩

/-- Rule 3a of the size-candidate subquery, relationally: the size group
of `f` within the scan's ledger has more than one member iff some other
file of the ledger shares `f`'s size. -/
theorem sharedSize_iff {s : DBState} {S : Int} (hn : NodupIds s) {f : FileRow}
    (hf : f ∈ ledgerFiles s S) :
    (1 < (ledgerFiles s S).countP (fun g => g.size == f.size)) ↔
      ∃ g ∈ ledgerFiles s S, g.id ≠ f.id ∧ g.size = f.size := by
  have hidsnd : ((ledgerFiles s S).map (·.id)).Nodup :=
    hn.sublist (List.Sublist.map _ (List.filter_sublist s.files))
  have hnd : (ledgerFiles s S).Nodup := hidsnd.of_map
  rw [List.countP_eq_length_filter]
  constructor
  · intro h2
    have hff : f ∈ (ledgerFiles s S).filter (fun g => g.size == f.size) :=
      List.mem_filter.mpr ⟨hf, by simp⟩
    have hfil_nd : ((ledgerFiles s S).filter (fun g => g.size == f.size)).Nodup :=
      hnd.filter _
    obtain ⟨g, hg, hgne⟩ := exists_mem_ne_of_nodup hfil_nd hff (by omega)
    obtain ⟨hgl, hgsz⟩ := List.mem_filter.mp hg
    refine ⟨g, hgl, ?_, by simpa using hgsz⟩
    intro hgid
    exact hgne (List.inj_on_of_nodup_map hidsnd hgl hf hgid)
  · intro ⟨g, hgl, hgid, hgsz⟩
    have hgf : g ≠ f := fun he => hgid (congrArg (·.id) he)
    have hgfil : g ∈ (ledgerFiles s S).filter (fun g => g.size == f.size) :=
      List.mem_filter.mpr ⟨hgl, by simp [hgsz]⟩
    have hffil : f ∈ (ledgerFiles s S).filter (fun g => g.size == f.size) :=
      List.mem_filter.mpr ⟨hf, by simp⟩
    have := two_le_length_of_mem_ne hgfil hffil hgf
    omega

/-- The claim's description of the candidate set, stated relationally for
the comparison with the implementation's `hashCandidates`. -/
def specCandidate (s : DBState) (S : Int) (f : FileRow) : Prop :=
  f ∈ s.files ∧ inScanLedger s S f.id = true ∧ f.hashStatus = HashStatus.pending ∧
  ((∃ g ∈ ledgerFiles s S, g.id ≠ f.id ∧ g.size = f.size)
   ∨ (∃ g ∈ s.files, g.hashStatus = HashStatus.done ∧ g.size = f.size)
   ∨ (∃ g ∈ s.files, ∃ e ∈ s.fileScan, e.fileId = g.id ∧ e.scanId ≠ S ∧ g.size = f.size))

/-- C1: the hash-phase candidate set is exactly the pending files of the
scan's ledger whose size is shared within the ledger, matches a done
file anywhere, or matches a file in a different scan's ledger; jobs are
dispatched in size-descending order over exactly that set, the count
counts it, a successful claim picks from it, and in particular two
equal-size files in two different scans' ledgers are each candidates of
their own scan's hash phase. -/
theorem c1_candidate_set (s : DBState) (S : Int) (hn : NodupIds s) :
    (∀ f, f ∈ hashCandidates s S ↔ specCandidate s S f)
    ∧ (pendingHashJobs s S).Sorted sizeDesc
    ∧ (∀ f, f ∈ pendingHashJobs s S ↔ f ∈ hashCandidates s S)
    ∧ countHashCandidates s S = (pendingHashJobs s S).length
    ∧ (∀ (i : Int) (s' : DBState), claimNextHashJob s S = (some i, s') →
        ∃ f ∈ hashCandidates s S, f.id = i)
    ∧ (∀ (S2 : Int) (B : FileRow), S2 ≠ S → inScanLedger s S2 B.id = true →
        ∀ A : FileRow, A ∈ s.files → inScanLedger s S A.id = true →
          A.hashStatus = HashStatus.pending → A.size = B.size → B ∈ s.files →
          A ∈ hashCandidates s S) := by
  have hchar : ∀ f, f ∈ hashCandidates s S ↔ specCandidate s S f := by
    intro f
    constructor
    · intro hf
      obtain ⟨hm, hc⟩ := List.mem_filter.mp hf
      have hc' := hc
      unfold isHashCandidate at hc'
      simp only [Bool.and_eq_true, beq_iff_eq] at hc'
      obtain ⟨⟨hled, hpend⟩, hsz⟩ := hc'
      refine ⟨hm, hled, hpend, ?_⟩
      unfold isCandidateSize at hsz
      simp only [Bool.or_eq_true] at hsz
      rcases hsz with (h3a | h3b) | h3c
      · left
        have hfl : f ∈ ledgerFiles s S := List.mem_filter.mpr ⟨hm, hled⟩
        have hcount : 1 < (ledgerFiles s S).countP (fun g => g.size == f.size) := by
          simpa using h3a
        exact (sharedSize_iff hn hfl).mp hcount
      · right; left
        obtain ⟨g, hg, hp⟩ := List.any_eq_true.mp h3b
        simp only [Bool.and_eq_true, beq_iff_eq] at hp
        exact ⟨g, hg, hp.2, hp.1⟩
      · right; right
        obtain ⟨g, hg, hp⟩ := List.any_eq_true.mp h3c
        simp only [Bool.and_eq_true, beq_iff_eq] at hp
        obtain ⟨hgsz, hany⟩ := hp
        obtain ⟨e, he, hep⟩ := List.any_eq_true.mp hany
        simp only [Bool.and_eq_true, beq_iff_eq, Bool.not_eq_true',
          beq_eq_false_iff_ne] at hep
        exact ⟨g, hg, e, he, hep.1, hep.2, hgsz⟩
    · intro ⟨hm, hled, hpend, hdisj⟩
      apply List.mem_filter.mpr
      refine ⟨hm, ?_⟩
      unfold isHashCandidate
      simp only [Bool.and_eq_true, beq_iff_eq]
      refine ⟨⟨hled, hpend⟩, ?_⟩
      unfold isCandidateSize
      simp only [Bool.or_eq_true]
      rcases hdisj with h3a | h3b | h3c
      · left; left
        have hfl : f ∈ ledgerFiles s S := List.mem_filter.mpr ⟨hm, hled⟩
        simp only [decide_eq_true_eq]
        exact (sharedSize_iff hn hfl).mpr h3a
      · left; right
        obtain ⟨g, hg, hdone, hsz⟩ := h3b
        exact List.any_eq_true.mpr ⟨g, hg, by simp [hdone, hsz]⟩
      · right
        obtain ⟨g, hg, e, he, hef, hes, hsz⟩ := h3c
        apply List.any_eq_true.mpr
        refine ⟨g, hg, ?_⟩
        simp only [Bool.and_eq_true, beq_iff_eq]
        refine ⟨hsz, ?_⟩
        apply List.any_eq_true.mpr
        refine ⟨e, he, ?_⟩
        simp only [Bool.and_eq_true, beq_iff_eq, Bool.not_eq_true',
          beq_eq_false_iff_ne]
        exact ⟨hef, hes⟩
  refine ⟨hchar, List.sorted_insertionSort sizeDesc (hashCandidates s S),
    fun f => mem_pendingHashJobs, ?_, ?_, ?_⟩
  · unfold countHashCandidates pendingHashJobs
    exact (List.perm_insertionSort sizeDesc (hashCandidates s S)).length_eq.symm
  · intro i s' h
    obtain ⟨f, t, hp, hid, _⟩ := claim_some_cases h
    exact ⟨f, mem_pendingHashJobs.mp (hp ▸ List.mem_cons_self f t), hid⟩
  · intro S2 B hS2 hBled A hA hAled hApend hAB hB
    apply (hchar A).mpr
    refine ⟨hA, hAled, hApend, Or.inr (Or.inr ?_)⟩
    obtain ⟨e, he, hep⟩ := List.any_eq_true.mp hBled
    simp only [Bool.and_eq_true, beq_iff_eq] at hep
    exact ⟨B, hB, e, he, hep.1, by rw [hep.2]; exact hS2, hAB.symm⟩

/-- Witness for C1: a file that is size-unique within its own scan but
matches the size of a file in another scan's ledger is a candidate. -/
theorem c1_candidate_set_witness :
    let f1 : FileRow :=
      { id := 1, folderId := 1, path := "a", size := 5, mtime := 0, inode := 1,
        deviceId := none, hash := none, hashStatus := .pending, hashedAt := none }
    let f2 : FileRow :=
      { id := 2, folderId := 2, path := "b", size := 5, mtime := 0, inode := 2,
        deviceId := none, hash := none, hashStatus := .pending, hashedAt := none }
    let s0 : DBState := { files := [f1, f2], fileScan := [⟨1, 1⟩, ⟨2, 2⟩] }
    f1 ∈ hashCandidates s0 1 := by
  intro f1 f2 s0
  exact (c1_candidate_set s0 1 (by unfold NodupIds; decide)).2.2.2.2.2
    2 f2 (by decide) (by decide) f1 (by decide) (by decide) (by decide) (by decide) (by decide)

end Ditto

namespace Ditto

/-- Counterexample for C7: for the relative path "a/b" the pattern "a" IS
a complete component of the slash-normalized path (the claim says any
such pattern matches), but `ShouldExclude` returns false —
`segmentMatches` only looks for `path == seg`, a `"/"+seg` suffix or a
`"/"+seg+"/"` infix, which misses a leading component of a relative
path. -/
theorem c7_counterexample :
    ShouldExclude "a/b" ["a"] = false ∧ specComponentMatch "a/b" "a" = true
    ∧ specExcluded "a/b" ["a"] = true := by
  refine ⟨by decide, by decide, by decide⟩

theorem isPrefixOf_eq_true_iff {l1 l2 : List Char} :
    l1.isPrefixOf l2 = true ↔ ∃ t, l1 ++ t = l2 := by
  induction l1 generalizing l2 with
  | nil => simp [List.isPrefixOf]
  | cons a t ih =>
    cases l2 with
    | nil => simp [List.isPrefixOf]
    | cons b m =>
      simp only [List.isPrefixOf, Bool.and_eq_true, beq_iff_eq, ih, List.cons_append,
        List.cons.injEq]
      constructor
      · intro ⟨hab, u, hu⟩
        exact ⟨u, hab, hu⟩
      · intro ⟨u, hab, hu⟩
        exact ⟨hab, u, hu⟩

theorem containsList_iff {hay needle : List Char} :
    containsList hay needle = true ↔ ∃ pre post, hay = pre ++ (needle ++ post) := by
  unfold containsList
  rw [List.any_eq_true]
  constructor
  · intro ⟨t, ht, hpre⟩
    rw [List.mem_tails] at ht
    obtain ⟨post, hpost⟩ := isPrefixOf_eq_true_iff.mp hpre
    obtain ⟨pre, hpre2⟩ := ht
    exact ⟨pre, post, by rw [← hpre2, ← hpost]⟩
  · intro ⟨pre, post, hsplit⟩
    refine ⟨needle ++ post, ?_, ?_⟩
    · rw [List.mem_tails]
      exact ⟨pre, hsplit.symm⟩
    · exact isPrefixOf_eq_true_iff.mpr ⟨post, rfl⟩

theorem segmentMatches_iff (path seg : List Char) :
    segmentMatches path seg = true ↔
      (path = seg ∨ ('/' :: seg) <:+ path
        ∨ ∃ pre post, path = pre ++ '/' :: (seg ++ '/' :: post)) := by
  unfold segmentMatches
  simp only [Bool.or_eq_true, beq_iff_eq]
  constructor
  · intro h
    rcases h with (h1 | h2) | h3
    · exact Or.inl h1
    · exact Or.inr (Or.inl (by simpa using h2))
    · refine Or.inr (Or.inr ?_)
      obtain ⟨pre, post, hsplit⟩ := containsList_iff.mp h3
      refine ⟨pre, post, ?_⟩
      rw [hsplit]
      simp
  · intro h
    rcases h with h1 | h2 | h3
    · exact Or.inl (Or.inl h1)
    · exact Or.inl (Or.inr (by simpa using h2))
    · refine Or.inr ?_
      obtain ⟨pre, post, hsplit⟩ := h3
      apply containsList_iff.mpr
      refine ⟨pre, post, ?_⟩
      rw [hsplit]
      simp

theorem shouldExclude_iff_any (path : String) (patterns : List String) :
    ShouldExclude path patterns = true ↔
      ∃ p ∈ patterns,
        (if isGlobPattern p then goMatchAux p.toList (goBase path.toList)
         else segmentMatches (toSlash path.toList) p.toList) = true := by
  cases patterns with
  | nil => simp [ShouldExclude]
  | cons p0 ps =>
    rw [show ShouldExclude path (p0 :: ps) = (p0 :: ps).any (fun p =>
      if isGlobPattern p then goMatchAux p.toList (goBase path.toList)
      else segmentMatches (toSlash path.toList) p.toList) from rfl]
    exact List.any_eq_true

/-- C7 as amended: `ShouldExclude` is true iff some pattern matches,
where a pattern containing `*` or `?` matches iff the glob matches the
path's basename, and any other pattern matches iff the slash-normalized
path equals it, ends with `"/" + pattern`, or contains
`"/" + pattern + "/"`; the result does not depend on the order of the
patterns.  (Unlike the claim's "complete component" reading, a leading
component of a relative path does not match.) -/
theorem c7_amended_segment_semantics (path : String) (patterns : List String) :
    (ShouldExclude path patterns = true ↔
      ∃ p ∈ patterns,
        (isGlobPattern p = true ∧ goMatchAux p.toList (goBase path.toList) = true)
        ∨ (isGlobPattern p = false ∧
            (path.toList = p.toList
             ∨ ('/' :: p.toList) <:+ path.toList
             ∨ ∃ pre post, path.toList = pre ++ '/' :: (p.toList ++ '/' :: post))))
    ∧ (∀ patterns' : List String, patterns.Perm patterns' →
        ShouldExclude path patterns = ShouldExclude path patterns') := by
  have perElem : ∀ p : String,
      ((if isGlobPattern p then goMatchAux p.toList (goBase path.toList)
        else segmentMatches (toSlash path.toList) p.toList) = true) ↔
      ((isGlobPattern p = true ∧ goMatchAux p.toList (goBase path.toList) = true)
        ∨ (isGlobPattern p = false ∧
            (path.toList = p.toList
             ∨ ('/' :: p.toList) <:+ path.toList
             ∨ ∃ pre post, path.toList = pre ++ '/' :: (p.toList ++ '/' :: post)))) := by
    intro p
    by_cases hg : isGlobPattern p = true
    · rw [if_pos hg]
      constructor
      · intro h
        exact Or.inl ⟨hg, h⟩
      · intro h
        rcases h with ⟨_, h⟩ | ⟨hng, _⟩
        · exact h
        · rw [hg] at hng
          exact Bool.noConfusion hng
    · rw [if_neg hg]
      have hg' : isGlobPattern p = false := by
        cases hb : isGlobPattern p
        · rfl
        · exact absurd hb hg
      have htos : toSlash path.toList = path.toList := rfl
      rw [htos, segmentMatches_iff]
      constructor
      · intro h
        exact Or.inr ⟨hg', h⟩
      · intro h
        rcases h with ⟨hgt, _⟩ | ⟨_, h⟩
        · rw [hgt] at hg'
          exact Bool.noConfusion hg'
        · exact h
  constructor
  · rw [shouldExclude_iff_any]
    constructor
    · intro ⟨p, hp, hb⟩
      exact ⟨p, hp, (perElem p).mp hb⟩
    · intro ⟨p, hp, hb⟩
      exact ⟨p, hp, (perElem p).mpr hb⟩
  · intro patterns' hperm
    rw [Bool.eq_iff_iff, shouldExclude_iff_any, shouldExclude_iff_any]
    constructor
    · intro ⟨p, hp, hb⟩
      exact ⟨p, hperm.mem_iff.mp hp, hb⟩
    · intro ⟨p, hp, hb⟩
      exact ⟨p, hperm.mem_iff.mpr hp, hb⟩

/-- Witness for the amended C7: `.git` as a middle component excludes the
path, and swapping the pattern order does not change the result. -/
theorem c7_amended_segment_semantics_witness :
    ShouldExclude "/repo/.git/config" [".git", "node_modules"] = true
    ∧ ShouldExclude "/repo/.git/config" [".git", "node_modules"]
        = ShouldExclude "/repo/.git/config" ["node_modules", ".git"] := by
  constructor
  · apply (c7_amended_segment_semantics "/repo/.git/config" [".git", "node_modules"]).1.mpr
    refine ⟨".git", by decide, Or.inr ⟨by decide, Or.inr (Or.inr ?_)⟩⟩
    exact ⟨"/repo".toList, "config".toList, by decide⟩
  · exact (c7_amended_segment_semantics "/repo/.git/config" [".git", "node_modules"]).2
      ["node_modules", ".git"] (List.Perm.swap "node_modules" ".git" [])

end Ditto
